import Mathlib

/-!
Verification development for the chest-X-ray heatmap pipeline
(src/ai/heatmap_generator.py, with the pathology-list construction of
src/ai/model_manager.py).

Modelling conventions (shallow embedding):

* Floating-point arrays are idealized as exact rational (ℚ) data.
* A numpy 2-D float array is a QMap: an explicit shape (rows, cols) plus a
  total data function; indices outside the shape carry irrelevant values,
  exactly like memory beyond a numpy view.  An image array is an Img whose
  entries are uint8 values, represented as Fin 256 so that saturation is
  part of the type.
* OpenCV primitives that the source calls are embedded by their documented
  exact semantics on rationals, with the final rounding of uint8 results
  modelled by cvRound (round half to even) and saturation:
    - cv2.resize INTER_CUBIC and torch/captum bicubic interpolation both use
      the half-pixel coordinate transform and the 4-tap cubic kernel with
      A = -3/4, replicating at the border (cubicSample below);
    - cv2.resize INTER_AREA at the integral ratios used by the source is the
      exact block mean;
    - cv2.GaussianBlur with ksize 5 and sigma 0 uses OpenCV's fixed kernel
      [1,4,6,4,1]/16 in each direction with reflect-101 borders;
    - cv2.addWeighted is the exact weighted sum, saturated per pixel;
    - cv2.applyColorMap's 256-entry JET lookup table is static colour data
      and is passed in as an opaque table argument (cmap);
    - cv2.circle with thickness -1 paints the closed disc of the given
      centre and radius; cv2.putText rasterizes glyphs and is passed in as
      an opaque image transform (putTextImpl), while the position the source
      computes for it is embedded exactly (textPos).
* The captum LayerGradCam attribution for a target index is an opaque
  per-index raw map (the attrib argument); the repository code applies it
  unchanged to the post-processing chain that is embedded here.
* Python's random.randint stream is explicit state passing (Rng): each call
  reads one byte of an abstract stream and advances the position, which is
  exactly the observable behaviour of the module-level PRNG within one run.
* Python's int() cast is truncation toward zero (ratTrunc); dict.get with a
  default is lookupD; list.index raising ValueError is the Option-valued
  pyIndex; sorted(key=probability, reverse=True) is the stable descending
  insertion sort sortDesc.
-/

/-- Truncation toward zero, the semantics of Python's int() on a float. -/
def ratTrunc (x : ℚ) : ℤ := if 0 ≤ x then ⌊x⌋ else -⌊-x⌋

/-- OpenCV cvRound: round to nearest, ties to even. -/
def cvRound (x : ℚ) : ℤ :=
  if x - ⌊x⌋ < 1/2 then ⌊x⌋
  else if 1/2 < x - ⌊x⌋ then ⌊x⌋ + 1
  else if 2 ∣ ⌊x⌋ then ⌊x⌋ else ⌊x⌋ + 1

/-- saturate_cast to uint8: round, then clamp into [0, 255]. -/
def satCast (x : ℚ) : Fin 256 := ⟨(max 0 (min (cvRound x) 255)).toNat, by omega⟩

/-- np.uint8 applied to a float: C truncation toward zero, then wrap mod 256. -/
def toU8 (x : ℚ) : Fin 256 := ⟨(ratTrunc x % 256).toNat, by omega⟩

/-- Clamp an integer index into [0, n-1]: the border-replicate access used by
resize interpolation. -/
def clampN (n : ℕ) (i : ℤ) : ℕ := (max 0 (min i ((n : ℤ) - 1))).toNat

/-- Reflect-101 border indexing (OpenCV BORDER_DEFAULT), used by GaussianBlur. -/
def refl101 (n : ℕ) (i : ℤ) : ℕ :=
  (if i < 0 then -i else if (n : ℤ) ≤ i then 2 * ((n : ℤ) - 1) - i else i).toNat

/-- A numpy 2-D float array: shape plus total data function. -/
structure QMap where
  rows : ℕ
  cols : ℕ
  data : ℕ → ℕ → ℚ

/-- Pointwise application, as in np.maximum(m, 0) or an elementwise divide. -/
def QMap.apply (m : QMap) (f : ℚ → ℚ) : QMap := ⟨m.rows, m.cols, fun i j => f (m.data i j)⟩

/-- A BGR uint8 image: shape plus per-channel data. -/
structure Img where
  rows : ℕ
  cols : ℕ
  data : ℕ → ℕ → Fin 3 → Fin 256

/-- Value of a uint8 sample as a rational. -/
def pixQ (v : Fin 256) : ℚ := (v : ℕ)

/-- The bicubic convolution constant used by both OpenCV INTER_CUBIC and torch
bicubic interpolation. -/
def cubicA : ℚ := -3/4

/-- The 4-tap cubic interpolation kernel. -/
def cubicW (x : ℚ) : ℚ :=
  if |x| ≤ 1 then ((cubicA + 2) * |x| - (cubicA + 3)) * |x| * |x| + 1
  else if |x| < 2 then ((cubicA * |x| - 5 * cubicA) * |x| + 8 * cubicA) * |x| - 4 * cubicA
  else 0

/-- One bicubic sample: half-pixel source coordinates, 4x4 separable taps,
border replication.  Shared by the float and the uint8 resize. -/
def cubicSample (get : ℕ → ℕ → ℚ) (sh sw dh dw I J : ℕ) : ℚ :=
  let fy : ℚ := ((I : ℚ) + 1/2) * sh / dh - 1/2
  let fx : ℚ := ((J : ℚ) + 1/2) * sw / dw - 1/2
  ∑ t : Fin 4, ∑ u : Fin 4,
    cubicW (fy - ⌊fy⌋ - ((t : ℕ) : ℚ) + 1) * cubicW (fx - ⌊fx⌋ - ((u : ℕ) : ℚ) + 1) *
      get (clampN sh (⌊fy⌋ + (t : ℕ) - 1)) (clampN sw (⌊fx⌋ + (u : ℕ) - 1))

/-- cv2.resize INTER_CUBIC / torch bicubic on a float map. -/
def resizeCubicQ (m : QMap) (dh dw : ℕ) : QMap :=
  ⟨dh, dw, fun I J => cubicSample m.data m.rows m.cols dh dw I J⟩

/-- cv2.resize INTER_CUBIC on a uint8 image: exact interpolation per channel,
then rounding and saturation. -/
def resizeCubicU8 (img : Img) (dh dw : ℕ) : Img :=
  ⟨dh, dw, fun I J c =>
    satCast (cubicSample (fun y x => pixQ (img.data y x c)) img.rows img.cols dh dw I J)⟩

/-- cv2.resize INTER_AREA at the integral downscale ratios the source uses:
the exact mean of each block, rounded and saturated. -/
def resizeArea (img : Img) (dh dw : ℕ) : Img :=
  ⟨dh, dw, fun I J c =>
    satCast ((∑ a ∈ Finset.range (img.rows / dh), ∑ b ∈ Finset.range (img.cols / dw),
      pixQ (img.data (I * (img.rows / dh) + a) (J * (img.cols / dw) + b) c)) /
        (((img.rows / dh) * (img.cols / dw) : ℕ) : ℚ))⟩

/-- cv2.addWeighted on uint8 images: per-pixel, per-channel weighted sum. -/
def addWeighted (a : Img) (alpha : ℚ) (b : Img) (beta : ℚ) (gamma : ℚ) : Img :=
  ⟨a.rows, a.cols, fun i j c =>
    satCast (alpha * pixQ (a.data i j c) + beta * pixQ (b.data i j c) + gamma)⟩

/-- The fixed 1-D kernel OpenCV uses for GaussianBlur with ksize 5, sigma 0. -/
def blurK (t : Fin 5) : ℚ :=
  if t.val = 0 then 1/16
  else if t.val = 1 then 1/4
  else if t.val = 2 then 3/8
  else if t.val = 3 then 1/4
  else 1/16

/-- cv2.GaussianBlur with kernel size (5, 5) and sigma 0: separable
convolution with blurK, reflect-101 borders, shape preserved. -/
def gaussianBlur5 (m : QMap) : QMap :=
  ⟨m.rows, m.cols, fun i j =>
    ∑ t : Fin 5, ∑ s : Fin 5,
      blurK t * blurK s *
        m.data (refl101 m.rows ((i : ℤ) + (t : ℕ) - 2)) (refl101 m.cols ((j : ℤ) + (s : ℕ) - 2))⟩

/-- np.max over all cells of a map (row-major fold, initial value cell 0 0). -/
def maxValQ (m : QMap) : ℚ :=
  (List.range (m.rows * m.cols)).foldl
    (fun acc k => max acc (m.data (k / m.cols) (k % m.cols))) (m.data 0 0)

/-- The first two lines of HeatmapGenerator.generate_heatmap: bicubic
upsample of the raw attributions to (224, 224), then np.maximum(heatmap, 0). -/
def clipStage (attributions : QMap) : QMap :=
  (resizeCubicQ attributions 224 224).apply (fun v => max v 0)

/-- The normalization line of generate_heatmap: divide by np.max(heatmap)
when it is nonzero, else by 1. -/
def normStage (attributions : QMap) : QMap :=
  (clipStage attributions).apply
    (fun v => v / (if maxValQ (clipStage attributions) ≠ 0 then maxValQ (clipStage attributions) else 1))

/-- HeatmapGenerator.generate_heatmap, from the captum raw attribution map on:
bicubic upsample to 224x224, clip negatives, divide by the maximum unless it
is zero, Gaussian blur with the fixed kernel (blur_factor = 5). -/
def generate_heatmap (attributions : QMap) : QMap :=
  gaussianBlur5 (normStage attributions)

/-- Stable descending insertion for one prediction pair: x is earlier in the
original iteration order than everything already placed, so it goes in front
of the first entry whose probability does not exceed its own. -/
def insertDesc (x : String × ℚ) : List (String × ℚ) → List (String × ℚ)
  | [] => [x]
  | y :: ys => if y.2 ≤ x.2 then x :: y :: ys else y :: insertDesc x ys

/-- Python sorted(predictions.items(), key=probability, reverse=True): a
stable sort, descending by probability, ties in original iteration order. -/
def sortDesc (l : List (String × ℚ)) : List (String × ℚ) := l.foldr insertDesc []

/-- Python dict.get(key, default) on a prediction mapping. -/
def lookupD (l : List (String × ℚ)) (k : String) (d : ℚ) : ℚ := (l.lookup k).getD d

/-- Python list.index: index of the first occurrence, none when the element is
absent (the source catches the ValueError and skips). -/
def pyIndex (l : List String) (d : String) : Option ℕ :=
  match l with
  | [] => none
  | x :: xs => if x = d then some 0 else (pyIndex xs d).map (fun i => i + 1)

/-- The loop body of HeatmapGenerator.generate_all_heatmaps: resolve the
class name in the passed pathology list (list.index, skipping on
ValueError), keep the index only when it is below the length of the model's
own pathology list, and then store the post-processed heatmap for the opaque
captum attribution (attrib) at that index. -/
def accumulateHeatmap (attrib : ℕ → QMap) (pathologies modelPathologies : List String)
    (acc : List (String × QMap)) (dp : String × ℚ) : List (String × QMap) :=
  match pyIndex pathologies dp.1 with
  | none => acc
  | some targetIdx =>
    if targetIdx < modelPathologies.length then
      acc ++ [(dp.1, generate_heatmap (attrib targetIdx))]
    else acc

/-- HeatmapGenerator.generate_all_heatmaps proper: fold the loop body over
the sorted predictions, return the map collection and the full ranked
class-name list. -/
def generate_all_heatmaps (attrib : ℕ → QMap) (predictions : List (String × ℚ))
    (pathologies : List String) (modelPathologies : List String) :
    List (String × QMap) × List String :=
  let sortedPreds := sortDesc predictions
  (sortedPreds.foldl (accumulateHeatmap attrib pathologies modelPathologies) [],
   sortedPreds.map Prod.fst)

/-- The total_weight accumulator of create_combined_heatmap: the sum of
predictions.get(disease, 0) over the map collection. -/
def weightTotal (heatmaps : List (String × QMap)) (predictions : List (String × ℚ)) : ℚ :=
  (heatmaps.map (fun p => lookupD predictions p.1 0)).sum

/-- The avg_heatmap accumulator of create_combined_heatmap before the
division: np.zeros((224, 224)) plus hmap * weight for each entry. -/
def weightedAvgRaw (heatmaps : List (String × QMap)) (predictions : List (String × ℚ)) : QMap :=
  ⟨224, 224, fun i j => (heatmaps.map (fun p => p.2.data i j * lookupD predictions p.1 0)).sum⟩

/-- The weighted-average stage of HeatmapGenerator.create_combined_heatmap:
accumulate hmap * weight and the total weight over the collection, divide
only when the total weight is positive. -/
def combined_avg (heatmaps : List (String × QMap)) (predictions : List (String × ℚ)) : QMap :=
  if 0 < weightTotal heatmaps predictions then
    (weightedAvgRaw heatmaps predictions).apply (fun v => v / weightTotal heatmaps predictions)
  else weightedAvgRaw heatmaps predictions

/-- HeatmapGenerator.overlay_heatmap: upscale both inputs by the fixed
resolution_factor 16 with bicubic interpolation, colour-map the heatmap
through the JET table (opaque cmap), alpha-blend, downscale back with
INTER_AREA. -/
def overlay_heatmap (cmap : Fin 256 → Fin 3 → Fin 256) (original : Img) (heatmap : QMap)
    (alpha : ℚ) : Img :=
  let originalHR := resizeCubicU8 original (original.rows * 16) (original.cols * 16)
  let heatmapHR := resizeCubicQ heatmap (original.rows * 16) (original.cols * 16)
  let colored : Img := ⟨original.rows * 16, original.cols * 16,
    fun i j c => cmap (toU8 (255 * heatmapHR.data i j)) c⟩
  let blended := addWeighted originalHR (1 - alpha) colored alpha 0
  resizeArea blended original.rows original.cols

/-- HeatmapGenerator.create_combined_heatmap: empty collection returns the
original image; otherwise blur the weighted average with the same Gaussian
pass as generate_heatmap and overlay it at the default alpha 1/2. -/
def create_combined_heatmap (cmap : Fin 256 → Fin 3 → Fin 256) (original : Img)
    (heatmaps : List (String × QMap)) (predictions : List (String × ℚ)) : Img :=
  if heatmaps.isEmpty then original
  else overlay_heatmap cmap original (gaussianBlur5 (combined_avg heatmaps predictions)) (1/2)

/-- np.unravel_index(np.argmax(m), m.shape): row-major scan keeping the first
strict maximum, returned as (row, col). -/
def argmaxRM (m : QMap) : ℕ × ℕ :=
  let best := (List.range (m.rows * m.cols)).foldl
    (fun best k =>
      if m.data (best / m.cols) (best % m.cols) < m.data (k / m.cols) (k % m.cols) then k
      else best) 0
  (best / m.cols, best % m.cols)

/-- The coordinate rescaling the source applies at both circle-overlay call
sites: int(coord * dstDim / srcDim), i.e. scale by the dimension ratio and
truncate toward zero. -/
def rescaleCoord (coord srcDim dstDim : ℕ) : ℤ :=
  ratTrunc (((coord * dstDim : ℕ) : ℚ) / (srcDim : ℚ))

/-- Modelled from the spec: rounding a scaled coordinate to the nearest
integer pixel, the behaviour section 4.4 of the spec prescribes for
rescale_coordinate.  Compared against rescaleCoord, which is what the source
computes. -/
def specRoundNearest (x : ℚ) : ℤ := ⌊x + 1/2⌋

/-- Centre of the disc overlay: the peak coordinate rescaled to image
resolution, in (x, y) order as the source builds it. -/
def circleCenter (img : Img) (heatmap : QMap) : ℤ × ℤ :=
  ((rescaleCoord (argmaxRM heatmap).2 heatmap.cols img.cols),
   (rescaleCoord (argmaxRM heatmap).1 heatmap.rows img.rows))

/-- Disc radius: int of 15% of the smaller image dimension. -/
def circleRadius (img : Img) : ℤ := ratTrunc (((min img.rows img.cols : ℕ) : ℚ) * (15/100))

/-- A BGR colour with an alpha byte, as in the source's colour table. -/
abbrev BGRA := Fin 256 × Fin 256 × Fin 256 × Fin 256

/-- The fixed disease → colour table of generate_circle_overlay. -/
def diseaseColors : List (String × BGRA) :=
  [ ("Pneumonia", (0, 0, 255, 128)),
    ("Tuberculosis", (0, 255, 255, 128)),
    ("COVID", (0, 165, 255, 128)),
    ("Atelectasis", (255, 0, 0, 128)),
    ("Cardiomegaly", (0, 255, 0, 128)),
    ("Pneumothorax", (255, 0, 255, 128)) ]

/-- Explicit state of Python's module-level random stream: an abstract byte
sequence and the current position. -/
structure Rng where
  seq : ℕ → Fin 256
  pos : ℕ

/-- random.randint(0, 255): read one byte, advance the stream. -/
def randByte (g : Rng) : Fin 256 × Rng := (g.seq g.pos, ⟨g.seq, g.pos + 1⟩)

/-- colors.get(disease, (randint, randint, randint, 128)): Python evaluates
the default argument first, so three bytes are always consumed, and the
fallback colour is whatever the stream yields at the current position. -/
def resolveColor (disease : String) (g : Rng) : BGRA × Rng :=
  let r1 := randByte g
  let r2 := randByte r1.2
  let r3 := randByte r2.2
  ((diseaseColors.lookup disease).getD (r1.1, r2.1, r3.1, 128), r3.2)

/-- Membership of a pixel in the closed disc painted by cv2.circle with
thickness -1: pixel (row i, col j) against a centre in (x, y) order. -/
def inDisc (center : ℤ × ℤ) (radius : ℤ) (i j : ℕ) : Prop :=
  ((j : ℤ) - center.1) ^ 2 + ((i : ℤ) - center.2) ^ 2 ≤ radius ^ 2

instance (center : ℤ × ℤ) (radius : ℤ) (i j : ℕ) : Decidable (inDisc center radius i j) := by
  unfold inDisc; exact inferInstance

/-- cv2.circle(img, center, radius, color, -1): paint the closed disc with
the given BGR colour, leave every other pixel untouched. -/
def drawCircleFilled (img : Img) (center : ℤ × ℤ) (radius : ℤ)
    (color : Fin 256 × Fin 256 × Fin 256) : Img :=
  ⟨img.rows, img.cols, fun i j c =>
    if inDisc center radius i j then
      (match c with | 0 => color.1 | 1 => color.2.1 | 2 => color.2.2)
    else img.data i j c⟩

/-- HeatmapGenerator.generate_circle_overlay: None heatmap returns a copy of
the original; otherwise paint the disc at the rescaled peak on a copy and
alpha-blend it with the original at the colour's alpha byte. -/
def generate_circle_overlay (original : Img) (disease : String) (heatmap : Option QMap)
    (g : Rng) : Img × Rng :=
  match heatmap with
  | none => (original, g)
  | some hm =>
    let cr := resolveColor disease g
    let canvas := drawCircleFilled original (circleCenter original hm) (circleRadius original)
      (cr.1.1, cr.1.2.1, cr.1.2.2.1)
    let alpha : ℚ := ((cr.1.2.2.2 : ℕ) : ℚ) / 255
    (addWeighted canvas alpha original (1 - alpha) 0, cr.2)

/-- The label position create_multi_circle_overlay computes: the rescaled
peak x, and int(rescaled peak y - 20), 20 pixels above the circle centre. -/
def textPos (resultImg : Img) (hm : QMap) : ℤ × ℤ :=
  ((rescaleCoord (argmaxRM hm).2 hm.cols resultImg.cols),
   (ratTrunc ((((argmaxRM hm).1 * resultImg.rows : ℕ) : ℚ) / (hm.rows : ℚ) - 20)))

/-- A text-label drawing action recorded by the multi-circle loop. -/
structure LabelOp where
  disease : String
  prob : ℚ
  pos : ℤ × ℤ

/-- Result of the multi-circle loop: the composited image, the advanced
random stream, and ghost observations of the loop's actions, namely the
(disease, probability) pairs whose discs were drawn, in drawing order, and
the label operations issued for them. -/
structure MCResult where
  img : Img
  rng : Rng
  drawn : List (String × ℚ)
  labels : List LabelOp

/-- The loop body of HeatmapGenerator.create_multi_circle_overlay: iterate
the sorted predictions with index i, break at max_circles or below
probability 1/10, skip classes without a map, otherwise draw the circle
overlay on the accumulated result and put the label 20 pixels above the
centre.  putTextImpl is the opaque cv2.putText rasterizer; the drawn and
labels fields record the actions the loop performs. -/
def multiCircleAux (putTextImpl : Img → String → ℚ → ℤ × ℤ → Img)
    (heatmaps : List (String × QMap)) (maxCircles : ℕ) :
    List (String × ℚ) → ℕ → Img → Rng → MCResult
  | [], _, res, g => ⟨res, g, [], []⟩
  | dp :: rest, i, res, g =>
    if maxCircles ≤ i ∨ dp.2 < 1/10 then ⟨res, g, [], []⟩
    else
      match heatmaps.lookup dp.1 with
      | none => multiCircleAux putTextImpl heatmaps maxCircles rest (i + 1) res g
      | some hm =>
        let co := generate_circle_overlay res dp.1 (some hm) g
        let tp := textPos res hm
        let labeled := putTextImpl co.1 dp.1 dp.2 tp
        let r := multiCircleAux putTextImpl heatmaps maxCircles rest (i + 1) labeled co.2
        ⟨r.img, r.rng, dp :: r.drawn, ⟨dp.1, dp.2, tp⟩ :: r.labels⟩

/-- HeatmapGenerator.create_multi_circle_overlay: empty collection returns a
copy of the original, otherwise run the loop over the descending-sorted
predictions starting from the original image. -/
def create_multi_circle_overlay (putTextImpl : Img → String → ℚ → ℤ × ℤ → Img)
    (original : Img) (heatmaps : List (String × QMap)) (predictions : List (String × ℚ))
    (g : Rng) (maxCircles : ℕ) : Img × Rng :=
  if heatmaps.isEmpty then (original, g)
  else
    let r := multiCircleAux putTextImpl heatmaps maxCircles (sortDesc predictions) 0 original g
    (r.img, r.rng)

/-- The dataset-specific disease names ModelManager appends after the model's
own outputs. -/
def datasetDiseases : List String :=
  ["COVID", "Lung_Opacity", "NORMAL", "PNEUMONIA", "Tuberculosis"]

/-- ModelManager.__init__: the combined pathology list, the model's own list
followed by each dataset disease not already present. -/
def managerPathologies (originalPathologies : List String) : List String :=
  datasetDiseases.foldl (fun acc d => if d ∈ acc then acc else acc ++ [d]) originalPathologies

/-- An all-zero 7x7 raw attribution map (the Attribution Engine producing no
signal). -/
def zeroAttr7 : QMap := ⟨7, 7, fun _ _ => 0⟩

/-- A 7x7 raw attribution map of maximum exactly zero that is not all-zero:
a single cell holds -1. -/
def attrC3 : QMap := ⟨7, 7, fun i j => if i = 3 ∧ j = 3 then -1 else 0⟩

/-- A 1x2 uint8 image with a maximal step edge: pixel values 0 and 255. -/
def imgC6 : Img := ⟨1, 2, fun _ j _ => if j = 0 then 0 else 255⟩

/-- A trivial 1x1 all-zero saliency map. -/
def hmap1 : QMap := ⟨1, 1, fun _ _ => 0⟩

/-- An arbitrary concrete colour table standing in for the JET lookup. -/
def cmap0 : Fin 256 → Fin 3 → Fin 256 := fun _ _ => 0

/-- A 4x4 all-black image. -/
def imgZ4 : Img := ⟨4, 4, fun _ _ _ => 0⟩

/-- A concrete random stream for counterexamples: byte n of the stream is
n mod 256, starting at position 0. -/
def rng0 : Rng := ⟨fun n => ⟨n % 256, by omega⟩, 0⟩

/-- A glyph rasterizer that leaves the image unchanged, a legitimate
instance of the opaque putText parameter. -/
def putText0 : Img → String → ℚ → ℤ × ℤ → Img := fun im _ _ _ => im

/-- A concrete attribution engine producing no signal for any index. -/
def attrib0 : ℕ → QMap := fun _ => zeroAttr7

/-- A class name absent from the fixed colour table. -/
def diseaseX : String := "Zeta"

/-- Two class names used by the multi-circle counterexample. -/
def dA : String := "Alpha"

def dB : String := "Beta"

/-- A two-class map collection for the multi-circle counterexample. -/
def hmsC7 : List (String × QMap) := [(dA, hmap1), (dB, hmap1)]

/-- Predictions with distinct confidences 9/10 and 4/5 for those classes. -/
def predsC7 : List (String × ℚ) := [(dA, 9/10), (dB, 4/5)]

/-- A singleton map collection used by the zero-weight witness. -/
def hmsC2 : List (String × QMap) := [("Pneumonia", hmap1)]

/-- Predictions assigning weight zero to that collection. -/
def predsC2 : List (String × ℚ) := [("Pneumonia", 0)]

/-- Predictions naming a class that does not resolve in the passed list. -/
def predsC4 : List (String × ℚ) := [("COVID", 1)]

/-- A one-entry pathology list standing for the model's own outputs. -/
def origW : List String := ["Pneumonia"]

/-- Predictions for the C10 witness: one model class, one appended class. -/
def predsC10 : List (String × ℚ) := [("Pneumonia", 1), ("COVID", 1)]

/-! Basic lemmas about the numeric helpers. -/

lemma ratTrunc_of_nonneg {x : ℚ} (h : 0 ≤ x) : ratTrunc x = ⌊x⌋ := if_pos h

lemma ratTrunc_le_ceil (x : ℚ) : ratTrunc x ≤ ⌈x⌉ := by
  unfold ratTrunc
  split
  · exact Int.floor_le_ceil x
  · rw [Int.floor_neg, neg_neg]

lemma cvRound_natCast (n : ℕ) : cvRound ((n : ℕ) : ℚ) = (n : ℤ) := by
  unfold cvRound
  rw [Int.floor_natCast, Int.cast_natCast, sub_self]
  rw [if_pos (by norm_num : (0 : ℚ) < 1/2)]

lemma satCast_pix (v : Fin 256) : satCast (pixQ v) = v := by
  apply Fin.ext
  show (max 0 (min (cvRound (((v : ℕ) : ℚ))) 255)).toNat = (v : ℕ)
  rw [cvRound_natCast]
  have hv := v.isLt
  omega

/-! Lemmas about maxValQ. -/

lemma foldl_max_init_le (f : ℕ → ℚ) (l : List ℕ) :
    ∀ acc : ℚ, acc ≤ l.foldl (fun a k => max a (f k)) acc := by
  induction l with
  | nil => intro acc; exact le_refl _
  | cons x xs ih =>
    intro acc
    simp only [List.foldl_cons]
    exact le_trans (le_max_left _ _) (ih _)

lemma foldl_max_le_mem (f : ℕ → ℚ) (l : List ℕ) :
    ∀ (acc : ℚ) (k : ℕ), k ∈ l → f k ≤ l.foldl (fun a k => max a (f k)) acc := by
  induction l with
  | nil => intro acc k hk; cases hk
  | cons x xs ih =>
    intro acc k hk
    simp only [List.foldl_cons]
    rcases List.mem_cons.mp hk with rfl | hk
    · exact le_trans (le_max_right _ _) (foldl_max_init_le f xs _)
    · exact ih _ k hk

lemma le_maxValQ (m : QMap) (i j : ℕ) (hi : i < m.rows) (hj : j < m.cols) :
    m.data i j ≤ maxValQ m := by
  unfold maxValQ
  have hc : 0 < m.cols := lt_of_le_of_lt (Nat.zero_le j) hj
  have hk : i * m.cols + j ∈ List.range (m.rows * m.cols) := by
    apply List.mem_range.mpr
    calc i * m.cols + j < i * m.cols + m.cols := by omega
      _ = (i + 1) * m.cols := by ring
      _ ≤ m.rows * m.cols := Nat.mul_le_mul_right _ (by omega)
  have h := foldl_max_le_mem (fun k => m.data (k / m.cols) (k % m.cols)) _ (m.data 0 0) _ hk
  have hdiv : (i * m.cols + j) / m.cols = i := by
    rw [Nat.add_comm, Nat.add_mul_div_right _ _ hc, Nat.div_eq_of_lt hj]
    omega
  have hmod : (i * m.cols + j) % m.cols = j := by
    rw [Nat.add_comm, Nat.add_mul_mod_self_right]
    exact Nat.mod_eq_of_lt hj
  simpa only [hdiv, hmod] using h

lemma maxValQ_zero (m : QMap) (h : ∀ i j, m.data i j = 0) : maxValQ m = 0 := by
  unfold maxValQ
  have step : ∀ (l : List ℕ) (acc : ℚ), acc = 0 →
      l.foldl (fun a k => max a (m.data (k / m.cols) (k % m.cols))) acc = 0 := by
    intro l
    induction l with
    | nil => intro acc h0; exact h0
    | cons x xs ih =>
      intro acc h0
      simp only [List.foldl_cons]
      exact ih _ (by rw [h0, h]; simp)
  exact step _ _ (h 0 0)

/-! Lemmas about the Gaussian blur. -/

lemma refl101_lt (n : ℕ) (hn : 3 ≤ n) (i : ℤ) (h : -2 ≤ i) : refl101 n i < n := by
  unfold refl101
  split
  · omega
  · split <;> omega

lemma blurK_nonneg : ∀ t : Fin 5, 0 ≤ blurK t := by
  intro t
  unfold blurK
  repeat' split
  all_goals norm_num

lemma blurK_vals : blurK 0 = 1/16 ∧ blurK 1 = 1/4 ∧ blurK 2 = 3/8 ∧ blurK 3 = 1/4 ∧
    blurK 4 = 1/16 := ⟨rfl, rfl, rfl, rfl, rfl⟩

lemma blurK_sq_sum : (∑ t : Fin 5, ∑ s : Fin 5, blurK t * blurK s) = 1 := by
  obtain ⟨h0, h1, h2, h3, h4⟩ := blurK_vals
  simp only [Fin.sum_univ_five, h0, h1, h2, h3, h4]
  norm_num

lemma gaussianBlur5_data (m : QMap) (i j : ℕ) :
    (gaussianBlur5 m).data i j = ∑ t : Fin 5, ∑ s : Fin 5,
      blurK t * blurK s *
        m.data (refl101 m.rows ((i : ℤ) + (t : ℕ) - 2)) (refl101 m.cols ((j : ℤ) + (s : ℕ) - 2)) := rfl

lemma gaussianBlur5_nonneg (m : QMap) (hm : ∀ i j, 0 ≤ m.data i j) (i j : ℕ) :
    0 ≤ (gaussianBlur5 m).data i j := by
  rw [gaussianBlur5_data]
  apply Finset.sum_nonneg
  intro t _
  apply Finset.sum_nonneg
  intro s _
  exact mul_nonneg (mul_nonneg (blurK_nonneg t) (blurK_nonneg s)) (hm _ _)

lemma gaussianBlur5_le_one (m : QMap) (h3r : 3 ≤ m.rows) (h3c : 3 ≤ m.cols)
    (hhi : ∀ i j, i < m.rows → j < m.cols → m.data i j ≤ 1) (i j : ℕ) :
    (gaussianBlur5 m).data i j ≤ 1 := by
  rw [gaussianBlur5_data]
  have hstep : (∑ t : Fin 5, ∑ s : Fin 5,
      blurK t * blurK s *
        m.data (refl101 m.rows ((i : ℤ) + (t : ℕ) - 2)) (refl101 m.cols ((j : ℤ) + (s : ℕ) - 2))) ≤
      ∑ t : Fin 5, ∑ s : Fin 5, blurK t * blurK s := by
    apply Finset.sum_le_sum
    intro t _
    apply Finset.sum_le_sum
    intro s _
    apply mul_le_of_le_one_right (mul_nonneg (blurK_nonneg t) (blurK_nonneg s))
    exact hhi _ _ (refl101_lt _ h3r _ (by omega)) (refl101_lt _ h3c _ (by omega))
  exact le_trans hstep (le_of_eq blurK_sq_sum)

lemma gaussianBlur5_zero (m : QMap) (h3r : 3 ≤ m.rows) (h3c : 3 ≤ m.cols)
    (hz : ∀ i j, i < m.rows → j < m.cols → m.data i j = 0) (i j : ℕ) :
    (gaussianBlur5 m).data i j = 0 := by
  rw [gaussianBlur5_data]
  apply Finset.sum_eq_zero
  intro t _
  apply Finset.sum_eq_zero
  intro s _
  rw [hz _ _ (refl101_lt _ h3r _ (by omega)) (refl101_lt _ h3c _ (by omega)), mul_zero]

/-! Lemmas about the post-processing stages. -/

lemma clipStage_rows (a : QMap) : (clipStage a).rows = 224 := rfl

lemma clipStage_cols (a : QMap) : (clipStage a).cols = 224 := rfl

lemma clipStage_nonneg (a : QMap) (i j : ℕ) : 0 ≤ (clipStage a).data i j :=
  le_max_right _ _

lemma maxValQ_clip_nonneg (a : QMap) : 0 ≤ maxValQ (clipStage a) :=
  le_trans (clipStage_nonneg a 0 0)
    (le_maxValQ _ 0 0 (by rw [clipStage_rows]; norm_num) (by rw [clipStage_cols]; norm_num))

lemma normStage_nonneg (a : QMap) (i j : ℕ) : 0 ≤ (normStage a).data i j := by
  show 0 ≤ (clipStage a).data i j / (if maxValQ (clipStage a) ≠ 0 then maxValQ (clipStage a) else 1)
  apply div_nonneg (clipStage_nonneg a i j)
  split
  · exact maxValQ_clip_nonneg a
  · norm_num

lemma normStage_le_one (a : QMap) (i j : ℕ) (hi : i < 224) (hj : j < 224) :
    (normStage a).data i j ≤ 1 := by
  show (clipStage a).data i j / (if maxValQ (clipStage a) ≠ 0 then maxValQ (clipStage a) else 1) ≤ 1
  have hle : (clipStage a).data i j ≤ maxValQ (clipStage a) :=
    le_maxValQ _ i j (by rw [clipStage_rows]; exact hi) (by rw [clipStage_cols]; exact hj)
  by_cases h : maxValQ (clipStage a) ≠ 0
  · rw [if_pos h]
    have hpos : 0 < maxValQ (clipStage a) := lt_of_le_of_ne (maxValQ_clip_nonneg a) (Ne.symm h)
    exact (div_le_one hpos).mpr hle
  · rw [if_neg h]
    push_neg at h
    rw [h] at hle
    have hz : (clipStage a).data i j = 0 := le_antisymm hle (clipStage_nonneg a i j)
    rw [hz]
    norm_num

/-- C1: for every raw saliency map processed by the Map Post-Processor
(generate_heatmap), every cell of the returned map lies in [0, 1], and the
returned map has exactly the requested 224 x 224 target dimensions,
including after the final Gaussian smoothing pass. -/
theorem c1_postprocess_bounds (attributions : QMap) :
    (generate_heatmap attributions).rows = 224 ∧ (generate_heatmap attributions).cols = 224 ∧
    ∀ i j : ℕ, 0 ≤ (generate_heatmap attributions).data i j ∧
      (generate_heatmap attributions).data i j ≤ 1 := by
  refine ⟨rfl, rfl, fun i j => ⟨?_, ?_⟩⟩
  · exact gaussianBlur5_nonneg _ (normStage_nonneg attributions) i j
  · exact gaussianBlur5_le_one _ (by norm_num [normStage, QMap.apply, clipStage, resizeCubicQ])
      (by norm_num [normStage, QMap.apply, clipStage, resizeCubicQ])
      (fun i j hi hj => normStage_le_one attributions i j hi hj) i j

/-! Small evaluation helpers: values of Fin casts and clamped indices that the
concrete computations need, all definitional. -/

lemma fin4_val0 : ((0 : Fin 4) : ℕ) = 0 := rfl

lemma fin4_val1 : ((1 : Fin 4) : ℕ) = 1 := rfl

lemma fin4_val2 : ((2 : Fin 4) : ℕ) = 2 := rfl

lemma fin4_val3 : ((3 : Fin 4) : ℕ) = 3 := rfl

lemma fin5_val2 : ((2 : Fin 5) : ℕ) = 2 := rfl

lemma clamp7_1 : clampN 7 1 = 1 := rfl

lemma clamp7_2 : clampN 7 2 = 2 := rfl

lemma clamp7_3 : clampN 7 3 = 3 := rfl

lemma clamp7_4 : clampN 7 4 = 4 := rfl

lemma clamp7_5 : clampN 7 5 = 5 := rfl

lemma clamp7_6 : clampN 7 6 = 6 := rfl

lemma normStage_rows (a : QMap) : (normStage a).rows = 224 := rfl

lemma normStage_cols (a : QMap) : (normStage a).cols = 224 := rfl

/-! Bounding the row-major fold from above, for maxima of nonpositive maps. -/

lemma foldl_max_le_bound (f : ℕ → ℚ) (c : ℚ) (l : List ℕ) :
    ∀ acc : ℚ, acc ≤ c → (∀ k ∈ l, f k ≤ c) →
      l.foldl (fun a k => max a (f k)) acc ≤ c := by
  induction l with
  | nil => intro acc h _; exact h
  | cons x xs ih =>
    intro acc h hall
    simp only [List.foldl_cons]
    exact ih _ (max_le h (hall x (List.mem_cons_self x xs)))
      (fun k hk => hall k (List.mem_cons_of_mem _ hk))

lemma attrC3_le_zero (i j : ℕ) : attrC3.data i j ≤ 0 := by
  show (if i = 3 ∧ j = 3 then (-1 : ℚ) else 0) ≤ 0
  split <;> norm_num

lemma maxValQ_attrC3 : maxValQ attrC3 = 0 := by
  apply le_antisymm
  · exact foldl_max_le_bound _ 0 _ _ (attrC3_le_zero 0 0) (fun k _ => attrC3_le_zero _ _)
  · have h := foldl_max_init_le (fun k => attrC3.data (k / attrC3.cols) (k % attrC3.cols))
      (List.range (attrC3.rows * attrC3.cols)) (attrC3.data 0 0)
    have h0 : attrC3.data 0 0 = 0 := by
      show (if (0 = 3 ∧ 0 = 3) then (-1 : ℚ) else 0) = 0
      norm_num
    rw [h0] at h
    exact h

/-! Positivity of the blur at an interior cell with positive centre value. -/

lemma refl101_self (n : ℕ) (i : ℕ) (hi : i < n) :
    refl101 n ((i : ℤ) + ((2 : Fin 5) : ℕ) - 2) = i := by
  rw [fin5_val2]
  unfold refl101
  split
  · omega
  · split <;> omega

lemma gaussianBlur5_pos (m : QMap) (i j : ℕ) (hi : i < m.rows) (hj : j < m.cols)
    (hnn : ∀ a b, 0 ≤ m.data a b) (hpos : 0 < m.data i j) :
    0 < (gaussianBlur5 m).data i j := by
  rw [gaussianBlur5_data]
  have hterm : ∀ (t s : Fin 5), (0:ℚ) ≤ blurK t * blurK s *
      m.data (refl101 m.rows ((i : ℤ) + (t : ℕ) - 2)) (refl101 m.cols ((j : ℤ) + (s : ℕ) - 2)) :=
    fun t s => mul_nonneg (mul_nonneg (blurK_nonneg t) (blurK_nonneg s)) (hnn _ _)
  have houter : ∀ t : Fin 5, (0:ℚ) ≤ ∑ s : Fin 5, blurK t * blurK s *
      m.data (refl101 m.rows ((i : ℤ) + (t : ℕ) - 2)) (refl101 m.cols ((j : ℤ) + (s : ℕ) - 2)) :=
    fun t => Finset.sum_nonneg (fun s _ => hterm t s)
  refine lt_of_lt_of_le ?_ (Finset.single_le_sum (fun t _ => houter t) (Finset.mem_univ (2 : Fin 5)))
  refine lt_of_lt_of_le ?_ (Finset.single_le_sum (fun s _ => hterm 2 s) (Finset.mem_univ (2 : Fin 5)))
  rw [refl101_self m.rows i hi, refl101_self m.cols j hj]
  have hk : (0:ℚ) < blurK 2 * blurK 2 := by
    obtain ⟨_, _, h2, _, _⟩ := blurK_vals
    rw [h2]
    norm_num
  exact mul_pos hk hpos

/-- C3 counterexample: the raw attribution map attrC3 has maximum exactly
zero (its only nonzero cell is -1), yet the Post-Processor does not return an
all-zero map: bicubic interpolation overshoots the nonpositive data to a
positive value at cell (96, 160), which survives the clip and the
normalization and spreads through the blur.  The claim as stated is false on
the code, which clips only after upsampling. -/
theorem c3_overshoot_counterexample :
    maxValQ attrC3 = 0 ∧ (generate_heatmap attrC3).data 96 160 ≠ 0 := by
  refine ⟨maxValQ_attrC3, ?_⟩
  have hsample : 0 < (resizeCubicQ attrC3 224 224).data 96 160 := by
    show 0 < cubicSample attrC3.data 7 7 224 224 96 160
    norm_num [cubicSample, Fin.sum_univ_four, cubicW, cubicA, attrC3,
      fin4_val0, fin4_val1, fin4_val2, fin4_val3,
      clamp7_1, clamp7_2, clamp7_3, clamp7_4, clamp7_5, clamp7_6,
      abs_of_nonneg, abs_of_neg, abs_of_nonpos]
  have hclip : 0 < (clipStage attrC3).data 96 160 := by
    show 0 < max ((resizeCubicQ attrC3 224 224).data 96 160) 0
    exact lt_max_of_lt_left hsample
  have hmax : 0 < maxValQ (clipStage attrC3) :=
    lt_of_lt_of_le hclip
      (le_maxValQ _ 96 160 (by rw [clipStage_rows]; norm_num) (by rw [clipStage_cols]; norm_num))
  have hnorm : 0 < (normStage attrC3).data 96 160 := by
    show 0 < (clipStage attrC3).data 96 160 /
      (if maxValQ (clipStage attrC3) ≠ 0 then maxValQ (clipStage attrC3) else 1)
    rw [if_pos (ne_of_gt hmax)]
    exact div_pos hclip hmax
  exact ne_of_gt (gaussianBlur5_pos (normStage attrC3) 96 160
    (by rw [normStage_rows]; norm_num) (by rw [normStage_cols]; norm_num)
    (normStage_nonneg attrC3) hnorm)

/-- C3 amended: when the maximum tested by the normalization guard, namely
the maximum of the clipped upsampled map, is exactly zero, the Post-Processor
returns the all-zero map with no division by zero; in particular this covers
every all-zero raw attribution map.  (The original claim quantified over raw
maps of maximum zero, which the counterexample above refutes, since the code
clips only after the bicubic upsampling.) -/
theorem c3_zero_guard_amended (attributions : QMap)
    (h : maxValQ (clipStage attributions) = 0) :
    ∀ i j, (generate_heatmap attributions).data i j = 0 := by
  intro i j
  apply gaussianBlur5_zero (normStage attributions)
    (by rw [normStage_rows]; norm_num) (by rw [normStage_cols]; norm_num) ?_ i j
  intro a b ha hb
  rw [normStage_rows] at ha
  rw [normStage_cols] at hb
  show (clipStage attributions).data a b /
    (if maxValQ (clipStage attributions) ≠ 0 then maxValQ (clipStage attributions) else 1) = 0
  have hle := le_maxValQ (clipStage attributions) a b
    (by rw [clipStage_rows]; exact ha) (by rw [clipStage_cols]; exact hb)
  rw [h] at hle
  have hz : (clipStage attributions).data a b = 0 :=
    le_antisymm hle (clipStage_nonneg attributions a b)
  rw [h, hz]
  norm_num

lemma cubicSample_zero_get (sh sw dh dw I J : ℕ) :
    cubicSample (fun _ _ => 0) sh sw dh dw I J = 0 := by
  unfold cubicSample
  simp

lemma clipStage_zeroAttr (i j : ℕ) : (clipStage zeroAttr7).data i j = 0 := by
  show max ((resizeCubicQ zeroAttr7 224 224).data i j) 0 = 0
  have h : (resizeCubicQ zeroAttr7 224 224).data i j = 0 := cubicSample_zero_get 7 7 224 224 i j
  rw [h]
  simp

theorem c3_zero_guard_amended_witness :
    maxValQ (clipStage zeroAttr7) = 0 ∧ (generate_heatmap zeroAttr7).data 0 0 = 0 := by
  have h : maxValQ (clipStage zeroAttr7) = 0 := maxValQ_zero _ (fun i j => clipStage_zeroAttr i j)
  exact ⟨h, c3_zero_guard_amended zeroAttr7 h 0 0⟩

/-! Lemmas for the zero-weight combined heatmap. -/

lemma list_sum_zero_of_nonneg : ∀ (l : List ℚ), (∀ x ∈ l, 0 ≤ x) → l.sum = 0 →
    ∀ x ∈ l, x = 0 := by
  intro l
  induction l with
  | nil => intro _ _ x hx; cases hx
  | cons a t ih =>
    intro hnn hsum x hx
    have hts : 0 ≤ t.sum := List.sum_nonneg (fun y hy => hnn y (List.mem_cons_of_mem _ hy))
    have ha : 0 ≤ a := hnn a (List.mem_cons_self a t)
    rw [List.sum_cons] at hsum
    rcases List.mem_cons.mp hx with rfl | hx
    · linarith
    · exact ih (fun y hy => hnn y (List.mem_cons_of_mem _ hy)) (by linarith) x hx

/-- C2: for every non-empty map collection whose weights (the looked-up
confidences) are nonnegative and sum to zero, the combined map that
create_combined_heatmap builds, after its final Gaussian smoothing pass (the
same gaussianBlur5 the Post-Processor uses), is all-zero, and the function
returns that map overlaid on the original at the default alpha 1/2 rather
than raising or dividing by zero. -/
theorem c2_zero_weight_combined (cmap : Fin 256 → Fin 3 → Fin 256) (original : Img)
    (heatmaps : List (String × QMap)) (predictions : List (String × ℚ))
    (hne : heatmaps ≠ [])
    (hnn : ∀ p ∈ heatmaps, 0 ≤ lookupD predictions p.1 0)
    (hsum : weightTotal heatmaps predictions = 0) :
    (∀ i j, (gaussianBlur5 (combined_avg heatmaps predictions)).data i j = 0) ∧
    create_combined_heatmap cmap original heatmaps predictions =
      overlay_heatmap cmap original (gaussianBlur5 (combined_avg heatmaps predictions)) (1/2) := by
  have hw : ∀ p ∈ heatmaps, lookupD predictions p.1 0 = 0 := by
    intro p hp
    exact list_sum_zero_of_nonneg _
      (by
        intro x hx
        rcases List.mem_map.mp hx with ⟨q, hq, rfl⟩
        exact hnn q hq)
      hsum _ (List.mem_map_of_mem _ hp)
  have havg : ∀ i j, (weightedAvgRaw heatmaps predictions).data i j = 0 := by
    intro i j
    show (heatmaps.map (fun p => p.2.data i j * lookupD predictions p.1 0)).sum = 0
    apply List.sum_eq_zero
    intro x hx
    rcases List.mem_map.mp hx with ⟨q, hq, rfl⟩
    rw [hw q hq, mul_zero]
  have hca : combined_avg heatmaps predictions = weightedAvgRaw heatmaps predictions := by
    unfold combined_avg
    rw [hsum]
    norm_num
  have hz : ∀ i j, (gaussianBlur5 (combined_avg heatmaps predictions)).data i j = 0 := by
    intro i j
    rw [hca]
    exact gaussianBlur5_zero _ (by norm_num [weightedAvgRaw]) (by norm_num [weightedAvgRaw])
      (fun a b _ _ => havg a b) i j
  refine ⟨hz, ?_⟩
  unfold create_combined_heatmap
  rw [if_neg (by simp only [List.isEmpty_eq_true]; exact hne)]

theorem c2_zero_weight_combined_witness :
    (hmsC2 ≠ [] ∧ (∀ p ∈ hmsC2, 0 ≤ lookupD predsC2 p.1 0) ∧ weightTotal hmsC2 predsC2 = 0) ∧
    ((∀ i j, (gaussianBlur5 (combined_avg hmsC2 predsC2)).data i j = 0) ∧
      create_combined_heatmap cmap0 imgZ4 hmsC2 predsC2 =
        overlay_heatmap cmap0 imgZ4 (gaussianBlur5 (combined_avg hmsC2 predsC2)) (1/2)) := by
  have h1 : hmsC2 ≠ [] := by simp [hmsC2]
  have h2 : ∀ p ∈ hmsC2, 0 ≤ lookupD predsC2 p.1 0 := by
    intro p hp
    simp only [hmsC2, List.mem_singleton] at hp
    subst hp
    simp [lookupD, predsC2, List.lookup]
  have h3 : weightTotal hmsC2 predsC2 = 0 := by
    simp [weightTotal, hmsC2, predsC2, lookupD, List.lookup]
  exact ⟨⟨h1, h2, h3⟩, c2_zero_weight_combined cmap0 imgZ4 hmsC2 predsC2 h1 h2 h3⟩

/-- C5 counterexample: at map coordinate 1 of a 3-wide map scaled to a
224-wide image, the code computes int(1 * 224 / 3) = 74, while rounding to
the nearest integer pixel as the claim states would give 75. -/
theorem c5_truncation_counterexample :
    rescaleCoord 1 3 224 = 74 ∧
    specRoundNearest (((1 * 224 : ℕ) : ℚ) / ((3 : ℕ) : ℚ)) = 75 ∧ (74 : ℤ) ≠ 75 := by
  refine ⟨?_, ?_, by norm_num⟩
  · show ratTrunc (((1 * 224 : ℕ) : ℚ) / ((3 : ℕ) : ℚ)) = 74
    rw [ratTrunc_of_nonneg (by norm_num)]
    norm_num
  · show ⌊((1 * 224 : ℕ) : ℚ) / ((3 : ℕ) : ℚ) + 1/2⌋ = 75
    norm_num

/-- C5 amended: rescale_coordinate scales each coordinate independently by
the ratio of image dimension to map dimension but truncates (floors, for
these nonnegative values) to an integer pixel instead of rounding to the
nearest one: the result is the unique integer within distance 1 below the
exact scaled value. -/
theorem c5_rescale_truncates_amended (coord srcDim dstDim : ℕ) (h : 0 < srcDim) :
    ((rescaleCoord coord srcDim dstDim : ℤ) : ℚ) ≤ ((coord * dstDim : ℕ) : ℚ) / ((srcDim : ℕ) : ℚ) ∧
    ((coord * dstDim : ℕ) : ℚ) / ((srcDim : ℕ) : ℚ) < ((rescaleCoord coord srcDim dstDim : ℤ) : ℚ) + 1 := by
  have h0 : (0:ℚ) ≤ ((coord * dstDim : ℕ) : ℚ) / ((srcDim : ℕ) : ℚ) :=
    div_nonneg (by positivity) (by positivity)
  unfold rescaleCoord
  rw [ratTrunc_of_nonneg h0]
  exact ⟨Int.floor_le _, Int.lt_floor_add_one _⟩

theorem c5_rescale_truncates_amended_witness :
    0 < 3 ∧
    (((rescaleCoord 1 3 224 : ℤ) : ℚ) ≤ ((1 * 224 : ℕ) : ℚ) / ((3 : ℕ) : ℚ) ∧
      ((1 * 224 : ℕ) : ℚ) / ((3 : ℕ) : ℚ) < ((rescaleCoord 1 3 224 : ℤ) : ℚ) + 1) :=
  ⟨by norm_num, c5_rescale_truncates_amended 1 3 224 (by norm_num)⟩

/-! The local disc blend. -/

lemma addWeighted_eq_of_eq (a b : Img) (alpha : ℚ) (i j : ℕ) (c : Fin 3)
    (h : a.data i j c = b.data i j c) :
    (addWeighted a alpha b (1 - alpha) 0).data i j c = b.data i j c := by
  show satCast (alpha * pixQ (a.data i j c) + (1 - alpha) * pixQ (b.data i j c) + 0) = b.data i j c
  rw [h, show alpha * pixQ (b.data i j c) + (1 - alpha) * pixQ (b.data i j c) + 0 =
    pixQ (b.data i j c) by ring]
  exact satCast_pix _

/-- C8: every pixel outside the drawn disc of the returned image equals the
corresponding pixel of the input image exactly; the blend can only affect the
disc's pixels.  Holds for any class name, any saliency map and any random
stream. -/
theorem c8_outside_disc_unchanged (original : Img) (disease : String) (hm : QMap) (g : Rng)
    (i j : ℕ) (c : Fin 3)
    (h : ¬ inDisc (circleCenter original hm) (circleRadius original) i j) :
    ((generate_circle_overlay original disease (some hm) g).1).data i j c = original.data i j c := by
  apply addWeighted_eq_of_eq
  show (if inDisc (circleCenter original hm) (circleRadius original) i j then
      (match c with
       | 0 => (resolveColor disease g).1.1
       | 1 => (resolveColor disease g).1.2.1
       | 2 => (resolveColor disease g).1.2.2.1)
    else original.data i j c) = original.data i j c
  rw [if_neg h]

/-! Concrete evaluations of the circle-overlay geometry on the 4x4 image and
the 1x1 map. -/

lemma argmaxRM_hmap1 : argmaxRM hmap1 = (0, 0) := by
  show ((List.range (1 * 1)).foldl _ 0 / hmap1.cols, (List.range (1 * 1)).foldl _ 0 % hmap1.cols) = (0, 0)
  norm_num [List.range_succ]

lemma circleCenter_Z4 : circleCenter imgZ4 hmap1 = (0, 0) := by
  unfold circleCenter
  rw [argmaxRM_hmap1]
  show (ratTrunc (((0 * imgZ4.cols : ℕ) : ℚ) / ((hmap1.cols : ℕ) : ℚ)),
    ratTrunc (((0 * imgZ4.rows : ℕ) : ℚ) / ((hmap1.rows : ℕ) : ℚ))) = (0, 0)
  norm_num [ratTrunc]

lemma circleRadius_Z4 : circleRadius imgZ4 = 0 := by
  show ratTrunc (((min imgZ4.rows imgZ4.cols : ℕ) : ℚ) * (15/100)) = 0
  rw [ratTrunc_of_nonneg (by norm_num [imgZ4])]
  norm_num [imgZ4]

theorem c8_outside_disc_unchanged_witness :
    ¬ inDisc (circleCenter imgZ4 hmap1) (circleRadius imgZ4) 3 3 ∧
    ((generate_circle_overlay imgZ4 "Pneumonia" (some hmap1) rng0).1).data 3 3 0 =
      imgZ4.data 3 3 0 := by
  have h : ¬ inDisc (circleCenter imgZ4 hmap1) (circleRadius imgZ4) 3 3 := by
    rw [circleCenter_Z4, circleRadius_Z4]
    norm_num [inDisc]
  exact ⟨h, c8_outside_disc_unchanged imgZ4 "Pneumonia" hmap1 rng0 3 3 0 h⟩

/-! The unmapped-class colour path. -/

lemma resolveColor_unmapped (disease : String) (g : Rng)
    (h : diseaseColors.lookup disease = none) :
    resolveColor disease g =
      ((g.seq g.pos, g.seq (g.pos + 1), g.seq (g.pos + 2), 128), ⟨g.seq, g.pos + 3⟩) := by
  unfold resolveColor randByte
  rw [h]
  rfl


lemma gco_unmapped (original : Img) (hm : QMap) (g : Rng) (disease : String)
    (h : diseaseColors.lookup disease = none) :
    generate_circle_overlay original disease (some hm) g =
      (addWeighted
        (drawCircleFilled original (circleCenter original hm) (circleRadius original)
          (g.seq g.pos, g.seq (g.pos + 1), g.seq (g.pos + 2)))
        ((((128 : Fin 256) : ℕ) : ℚ) / 255)
        original (1 - (((128 : Fin 256) : ℕ) : ℚ) / 255) 0,
       (⟨g.seq, g.pos + 3⟩ : Rng)) := by
  simp only [generate_circle_overlay, resolveColor_unmapped disease g h]

/-- C9 amended: a class name absent from the fixed colour table still
produces a valid disc overlay, whose colour is the next three bytes of the
random stream at its current position (alpha byte 128), after which the
stream has advanced by exactly 3.  The fallback colour therefore depends
only on the stream position, not on the class name: it is freshly drawn on
every call, and two overlays for the same unmapped class in one run agree
only if the stream happens to repeat (the counterexample below shows they
differ in general, refuting the stable-per-run wording). -/
theorem c9_fallback_color_amended (original : Img) (hm : QMap) (g : Rng) (disease : String)
    (h : diseaseColors.lookup disease = none) :
    generate_circle_overlay original disease (some hm) g =
      (addWeighted
        (drawCircleFilled original (circleCenter original hm) (circleRadius original)
          (g.seq g.pos, g.seq (g.pos + 1), g.seq (g.pos + 2)))
        ((((128 : Fin 256) : ℕ) : ℚ) / 255)
        original (1 - (((128 : Fin 256) : ℕ) : ℚ) / 255) 0,
       (⟨g.seq, g.pos + 3⟩ : Rng)) :=
  gco_unmapped original hm g disease h

theorem c9_fallback_color_amended_witness :
    diseaseColors.lookup diseaseX = none ∧
    generate_circle_overlay imgZ4 diseaseX (some hmap1) rng0 =
      (addWeighted
        (drawCircleFilled imgZ4 (circleCenter imgZ4 hmap1) (circleRadius imgZ4)
          (rng0.seq rng0.pos, rng0.seq (rng0.pos + 1), rng0.seq (rng0.pos + 2)))
        ((((128 : Fin 256) : ℕ) : ℚ) / 255)
        imgZ4 (1 - (((128 : Fin 256) : ℕ) : ℚ) / 255) 0,
       (⟨rng0.seq, rng0.pos + 3⟩ : Rng)) := by
  have h : diseaseColors.lookup diseaseX = none := by simp [diseaseColors, diseaseX, List.lookup]
  exact ⟨h, c9_fallback_color_amended imgZ4 hmap1 rng0 diseaseX h⟩

lemma addWeighted_val (a b : Img) (alpha beta gamma : ℚ) (i j : ℕ) (c : Fin 3) :
    (((addWeighted a alpha b beta gamma).data i j c : Fin 256) : ℕ) =
      (max 0 (min (cvRound (alpha * pixQ (a.data i j c) + beta * pixQ (b.data i j c) + gamma))
        255)).toNat := rfl

lemma drawCircle_center_val (img : Img) (center : ℤ × ℤ) (radius : ℤ)
    (col : Fin 256 × Fin 256 × Fin 256) (i j : ℕ) (hin : inDisc center radius i j) :
    (drawCircleFilled img center radius col).data i j 0 = col.1 := by
  show (if inDisc center radius i j then _ else _) = _
  rw [if_pos hin]

lemma pixQ_zero : pixQ 0 = 0 := by
  unfold pixQ
  rw [show ((0 : Fin 256) : ℕ) = 0 from rfl]
  norm_num

lemma inDisc_00 : inDisc (circleCenter imgZ4 hmap1) (circleRadius imgZ4) 0 0 := by
  rw [circleCenter_Z4, circleRadius_Z4]
  norm_num [inDisc]

/-- C9 counterexample: two successive disc overlays for the same unmapped
class name in the same run (the second call consuming the stream state the
first returned) paint visibly different colours: the blue-channel value at
the disc centre is 0 after the first call and 2 after the second, because
each call draws three fresh bytes from the stream. -/
theorem c9_fresh_color_counterexample :
    ((generate_circle_overlay imgZ4 diseaseX (some hmap1)
        ((generate_circle_overlay imgZ4 diseaseX (some hmap1) rng0).2)).1).data 0 0 0 ≠
    ((generate_circle_overlay imgZ4 diseaseX (some hmap1) rng0).1).data 0 0 0 := by
  have h : diseaseColors.lookup diseaseX = none := by simp [diseaseColors, diseaseX, List.lookup]
  have hsnd : (generate_circle_overlay imgZ4 diseaseX (some hmap1) rng0).2 =
      (⟨rng0.seq, rng0.pos + 3⟩ : Rng) := by
    rw [gco_unmapped imgZ4 hmap1 rng0 diseaseX h]
  apply Fin.ne_of_val_ne
  rw [hsnd, gco_unmapped imgZ4 hmap1 rng0 diseaseX h,
    gco_unmapped imgZ4 hmap1 (⟨rng0.seq, rng0.pos + 3⟩ : Rng) diseaseX h]
  rw [addWeighted_val, addWeighted_val]
  rw [drawCircle_center_val _ _ _ _ _ _ inDisc_00, drawCircle_center_val _ _ _ _ _ _ inDisc_00]
  have h3 : pixQ ((⟨rng0.seq, rng0.pos + 3⟩ : Rng).seq (⟨rng0.seq, rng0.pos + 3⟩ : Rng).pos) = 3 := by
    show pixQ (rng0.seq (rng0.pos + 3)) = 3
    unfold pixQ rng0
    norm_num
  have h0 : pixQ (rng0.seq rng0.pos) = 0 := by
    unfold pixQ rng0
    norm_num
  have hz : pixQ (imgZ4.data 0 0 0) = 0 := by
    show pixQ 0 = 0
    exact pixQ_zero
  rw [h3, h0, hz]
  have hcv2 : cvRound ((((128 : Fin 256) : ℕ) : ℚ) / 255 * 3 +
      (1 - (((128 : Fin 256) : ℕ) : ℚ) / 255) * 0 + 0) = 2 := by
    rw [show (((128 : Fin 256) : ℕ) : ℚ) = 128 from by
      rw [show ((128 : Fin 256) : ℕ) = 128 from rfl]; norm_num]
    unfold cvRound
    norm_num
  have hcv0 : cvRound ((((128 : Fin 256) : ℕ) : ℚ) / 255 * 0 +
      (1 - (((128 : Fin 256) : ℕ) : ℚ) / 255) * 0 + 0) = 0 := by
    rw [show (((128 : Fin 256) : ℕ) : ℚ) / 255 * 0 +
      (1 - (((128 : Fin 256) : ℕ) : ℚ) / 255) * 0 + 0 = 0 by ring]
    unfold cvRound
    norm_num
  rw [hcv2, hcv0]
  omega

/-! The stable descending sort. -/

lemma insertDesc_perm (x : String × ℚ) (l : List (String × ℚ)) :
    List.Perm (insertDesc x l) (x :: l) := by
  induction l with
  | nil => exact List.Perm.refl _
  | cons y ys ih =>
    show List.Perm (if y.2 ≤ x.2 then x :: y :: ys else y :: insertDesc x ys) (x :: y :: ys)
    split
    · exact List.Perm.refl _
    · exact List.Perm.trans (List.Perm.cons y ih) (List.Perm.swap x y ys)

lemma sortDesc_perm (l : List (String × ℚ)) : List.Perm (sortDesc l) l := by
  induction l with
  | nil => exact List.Perm.refl _
  | cons x xs ih =>
    show List.Perm (insertDesc x (sortDesc xs)) (x :: xs)
    exact List.Perm.trans (insertDesc_perm x (sortDesc xs)) (List.Perm.cons x ih)

lemma insertDesc_pairwise (x : String × ℚ) (l : List (String × ℚ))
    (h : l.Pairwise (fun a b => b.2 ≤ a.2)) :
    (insertDesc x l).Pairwise (fun a b => b.2 ≤ a.2) := by
  induction l with
  | nil => simp [insertDesc]
  | cons y ys ih =>
    rw [List.pairwise_cons] at h
    show (if y.2 ≤ x.2 then x :: y :: ys else y :: insertDesc x ys).Pairwise _
    split
    · case isTrue hxy =>
      rw [List.pairwise_cons]
      refine ⟨?_, List.pairwise_cons.mpr h⟩
      intro b hb
      rcases List.mem_cons.mp hb with rfl | hb
      · exact hxy
      · exact le_trans (h.1 b hb) hxy
    · case isFalse hxy =>
      rw [List.pairwise_cons]
      refine ⟨?_, ih h.2⟩
      intro b hb
      rcases List.mem_cons.mp ((insertDesc_perm x ys).mem_iff.mp hb) with rfl | hb2
      · exact le_of_lt (not_le.mp hxy)
      · exact h.1 b hb2

lemma sortDesc_pairwise (l : List (String × ℚ)) :
    (sortDesc l).Pairwise (fun a b => b.2 ≤ a.2) := by
  induction l with
  | nil => simp [sortDesc]
  | cons x xs ih =>
    show (insertDesc x (sortDesc xs)).Pairwise _
    exact insertDesc_pairwise x _ ih

lemma insertDesc_filter (x : String × ℚ) (l : List (String × ℚ)) (q : ℚ)
    (h : l.Pairwise (fun a b => b.2 ≤ a.2)) :
    (insertDesc x l).filter (fun p => decide (p.2 = q)) =
      (x :: l).filter (fun p => decide (p.2 = q)) := by
  induction l with
  | nil => rfl
  | cons y ys ih =>
    rw [List.pairwise_cons] at h
    show (if y.2 ≤ x.2 then x :: y :: ys else y :: insertDesc x ys).filter _ = _
    split
    · rfl
    · case isFalse hxy =>
      by_cases hx : x.2 = q <;> by_cases hy : y.2 = q
      · exact absurd (le_of_eq (hy.trans hx.symm)) hxy
      · simp [List.filter_cons, hx, hy, ih h.2]
      · simp [List.filter_cons, hx, hy, ih h.2]
      · simp [List.filter_cons, hx, hy, ih h.2]

lemma sortDesc_filter (l : List (String × ℚ)) (q : ℚ) :
    (sortDesc l).filter (fun p => decide (p.2 = q)) =
      l.filter (fun p => decide (p.2 = q)) := by
  induction l with
  | nil => rfl
  | cons x xs ih =>
    show (insertDesc x (sortDesc xs)).filter _ = _
    rw [insertDesc_filter x _ q (sortDesc_pairwise xs)]
    show (x :: sortDesc xs).filter _ = (x :: xs).filter _
    rw [List.filter_cons, List.filter_cons, ih]

/-! Which class names can end up as keys of the map collection. -/

lemma accumulateHeatmap_none (attrib : ℕ → QMap) (pathologies modelPathologies : List String)
    (acc : List (String × QMap)) (dp : String × ℚ) (h : pyIndex pathologies dp.1 = none) :
    accumulateHeatmap attrib pathologies modelPathologies acc dp = acc := by
  unfold accumulateHeatmap
  rw [h]

lemma accumulateHeatmap_some (attrib : ℕ → QMap) (pathologies modelPathologies : List String)
    (acc : List (String × QMap)) (dp : String × ℚ) (idx : ℕ)
    (h : pyIndex pathologies dp.1 = some idx) :
    accumulateHeatmap attrib pathologies modelPathologies acc dp =
      if idx < modelPathologies.length then acc ++ [(dp.1, generate_heatmap (attrib idx))]
      else acc := by
  unfold accumulateHeatmap
  rw [h]

lemma genAll_keys_resolve (attrib : ℕ → QMap) (pathologies modelPathologies : List String) :
    ∀ (l : List (String × ℚ)) (acc : List (String × QMap)) (d : String),
      d ∈ ((l.foldl (accumulateHeatmap attrib pathologies modelPathologies) acc).map Prod.fst) →
      d ∈ acc.map Prod.fst ∨
        ∃ idx, pyIndex pathologies d = some idx ∧ idx < modelPathologies.length := by
  intro l
  induction l with
  | nil => intro acc d hd; exact Or.inl hd
  | cons dp rest ih =>
    intro acc d hd
    rw [List.foldl_cons] at hd
    rcases ih _ d hd with hacc | hex
    · rcases hidx : pyIndex pathologies dp.1 with _ | idx
      · rw [accumulateHeatmap_none attrib pathologies modelPathologies acc dp hidx] at hacc
        exact Or.inl hacc
      · rw [accumulateHeatmap_some attrib pathologies modelPathologies acc dp idx hidx] at hacc
        by_cases hlt : idx < modelPathologies.length
        · rw [if_pos hlt] at hacc
          rw [List.map_append, List.mem_append] at hacc
          rcases hacc with hl | hr
          · exact Or.inl hl
          · simp only [List.map_cons, List.map_nil, List.mem_singleton] at hr
            subst hr
            exact Or.inr ⟨idx, hidx, hlt⟩
        · rw [if_neg hlt] at hacc
          exact Or.inl hacc
    · exact Or.inr hex

/-- C4: generate_all_heatmaps returns as its second component the full
ranked class-name list: the names of the stable descending sort of the
predictions, which is a permutation of all prediction entries (including
skipped classes), is pairwise descending in confidence, and preserves the
original relative order of entries with equal confidence; and any class name
that does not resolve in the passed pathology list is silently absent from
the returned map collection without aborting the batch. -/
theorem c4_ranking_and_silent_skip (attrib : ℕ → QMap) (predictions : List (String × ℚ))
    (pathologies modelPathologies : List String) :
    ((generate_all_heatmaps attrib predictions pathologies modelPathologies).2 =
        (sortDesc predictions).map Prod.fst ∧
      List.Perm (sortDesc predictions) predictions ∧
      (sortDesc predictions).Pairwise (fun a b => b.2 ≤ a.2) ∧
      (∀ q : ℚ, (sortDesc predictions).filter (fun p => decide (p.2 = q)) =
        predictions.filter (fun p => decide (p.2 = q)))) ∧
    (∀ d, pyIndex pathologies d = none →
      d ∉ ((generate_all_heatmaps attrib predictions pathologies modelPathologies).1.map Prod.fst)) := by
  refine ⟨⟨rfl, sortDesc_perm _, sortDesc_pairwise _, fun q => sortDesc_filter _ q⟩, ?_⟩
  intro d hnone hd
  rcases genAll_keys_resolve attrib pathologies modelPathologies (sortDesc predictions) [] d hd with
    hacc | ⟨idx, hsome, _⟩
  · cases hacc
  · rw [hnone] at hsome
    cases hsome

theorem c4_ranking_and_silent_skip_witness :
    pyIndex origW "COVID" = none ∧
    "COVID" ∉ ((generate_all_heatmaps attrib0 predsC4 origW origW).1.map Prod.fst) := by
  have h : pyIndex origW "COVID" = none := by simp [pyIndex, origW]
  exact ⟨h, (c4_ranking_and_silent_skip attrib0 predsC4 origW origW).2 "COVID" h⟩

/-! The ModelManager pathology list extends the model's own list. -/

lemma foldl_append_extends (ds : List String) :
    ∀ acc : List String,
      ∃ t, ds.foldl (fun acc d => if d ∈ acc then acc else acc ++ [d]) acc = acc ++ t := by
  induction ds with
  | nil => intro acc; exact ⟨[], by simp⟩
  | cons d rest ih =>
    intro acc
    rw [List.foldl_cons]
    by_cases hm : d ∈ acc
    · rw [if_pos hm]
      exact ih acc
    · rw [if_neg hm]
      obtain ⟨t, ht⟩ := ih (acc ++ [d])
      exact ⟨[d] ++ t, by rw [ht, List.append_assoc]⟩

lemma managerPathologies_extends (orig : List String) :
    ∃ t, managerPathologies orig = orig ++ t :=
  foldl_append_extends datasetDiseases orig

lemma pyIndex_get : ∀ (l : List String) (d : String) (i : ℕ),
    pyIndex l d = some i → l[i]? = some d := by
  intro l
  induction l with
  | nil => intro d i h; cases h
  | cons x xs ih =>
    intro d i h
    unfold pyIndex at h
    by_cases hx : x = d
    · rw [if_pos hx] at h
      injection h with h
      subst h
      simp [hx]
    · rw [if_neg hx] at h
      rcases hmap : pyIndex xs d with _ | j
      · rw [hmap] at h
        cases h
      · rw [hmap] at h
        injection h with h
        subst h
        rw [List.getElem?_cons_succ]
        exact ih d j hmap

/-- C10: in generate_all_heatmaps, a class whose resolved index in the
combined pathology list is at least the length of the model's own output
list is never stored, and (since ModelManager builds the combined list as
the model's list followed by the appended dataset diseases) the map
collection's keys are always a subset of the model's own pathology names,
regardless of confidence — silently excluding every appended
dataset-specific disease such as COVID or Tuberculosis. -/
theorem c10_model_classes_only (orig : List String) (attrib : ℕ → QMap)
    (predictions : List (String × ℚ)) :
    (∀ d idx, pyIndex (managerPathologies orig) d = some idx → orig.length ≤ idx →
        d ∉ ((generate_all_heatmaps attrib predictions (managerPathologies orig) orig).1.map
          Prod.fst)) ∧
    (∀ d, d ∈ ((generate_all_heatmaps attrib predictions (managerPathologies orig) orig).1.map
        Prod.fst) → d ∈ orig) := by
  constructor
  · intro d idx hsome hge hd
    rcases genAll_keys_resolve attrib (managerPathologies orig) orig (sortDesc predictions) []
      d hd with hacc | ⟨i, hsome2, hlt⟩
    · cases hacc
    · rw [hsome] at hsome2
      injection hsome2 with h
      omega
  · intro d hd
    rcases genAll_keys_resolve attrib (managerPathologies orig) orig (sortDesc predictions) []
      d hd with hacc | ⟨i, hsome, hlt⟩
    · cases hacc
    · have hget := pyIndex_get _ _ _ hsome
      obtain ⟨t, ht⟩ := managerPathologies_extends orig
      rw [ht, List.getElem?_append, if_pos hlt] at hget
      exact List.getElem?_mem hget

theorem c10_model_classes_only_witness :
    (pyIndex (managerPathologies origW) "COVID" = some 1 ∧ origW.length ≤ 1 ∧
      "COVID" ∉ ((generate_all_heatmaps attrib0 predsC10 (managerPathologies origW) origW).1.map
        Prod.fst)) ∧
    ("Pneumonia" ∈ ((generate_all_heatmaps attrib0 predsC10 (managerPathologies origW) origW).1.map
        Prod.fst) ∧ "Pneumonia" ∈ origW) := by
  have h1 : pyIndex (managerPathologies origW) "COVID" = some 1 := by
    simp [managerPathologies, datasetDiseases, origW, pyIndex]
  have h2 : origW.length ≤ 1 := by simp [origW]
  have hmem : "Pneumonia" ∈
      ((generate_all_heatmaps attrib0 predsC10 (managerPathologies origW) origW).1.map
        Prod.fst) := by
    simp [generate_all_heatmaps, sortDesc, insertDesc, predsC10, accumulateHeatmap, pyIndex,
      managerPathologies, datasetDiseases, origW]
  exact ⟨⟨h1, h2, (c10_model_classes_only origW attrib0 predsC10).1 "COVID" 1 h1 h2⟩,
    ⟨hmem, (c10_model_classes_only origW attrib0 predsC10).2 "Pneumonia" hmem⟩⟩

/-! The alpha = 0 blend leaves the high-resolution image untouched. -/

lemma addWeighted_one_zero (a b : Img) : addWeighted a (1 - 0) b 0 0 = a := by
  obtain ⟨r, c, d⟩ := a
  show Img.mk r c _ = Img.mk r c d
  congr 1
  funext i j ch
  show satCast ((1 - 0) * pixQ (d i j ch) + 0 * pixQ (b.data i j ch) + 0) = d i j ch
  rw [show (1 - 0 : ℚ) * pixQ (d i j ch) + 0 * pixQ (b.data i j ch) + 0 = pixQ (d i j ch) by
    ring]
  exact satCast_pix _

lemma overlay_alpha_zero (cmap : Fin 256 → Fin 3 → Fin 256) (original : Img) (heatmap : QMap) :
    overlay_heatmap cmap original heatmap 0 =
      resizeArea (resizeCubicU8 original (original.rows * 16) (original.cols * 16))
        original.rows original.cols := by
  simp only [overlay_heatmap]
  rw [addWeighted_one_zero]

/-- C6 amended: overlay_heatmap called with alpha = 0 contributes nothing
from the colour-mapped saliency map - the result is independent of both the
map and the colour table - but it is not the input image: it is the bicubic
16x upscale of the input followed by the INTER_AREA downscale back, a round
trip that is not the identity in general (see the counterexample). -/
theorem c6_alpha_zero_amended (cmap cmap2 : Fin 256 → Fin 3 → Fin 256) (original : Img)
    (heatmap heatmap2 : QMap) :
    overlay_heatmap cmap original heatmap 0 = overlay_heatmap cmap2 original heatmap2 0 ∧
    overlay_heatmap cmap original heatmap 0 =
      resizeArea (resizeCubicU8 original (original.rows * 16) (original.cols * 16))
        original.rows original.cols := by
  have h1 := overlay_alpha_zero cmap original heatmap
  have h2 := overlay_alpha_zero cmap2 original heatmap2
  exact ⟨h1.trans h2.symm, h1⟩

/-! Evaluation helpers for the round-trip counterexample. -/

lemma cvRound_ge_floor (x : ℚ) : ⌊x⌋ ≤ cvRound x := by
  unfold cvRound
  split
  · exact le_refl _
  · split
    · omega
    · split
      · exact le_refl _
      · omega

lemma satCast_ne_zero (x : ℚ) (h : 1 ≤ x) : satCast x ≠ 0 := by
  have hcv : (1:ℤ) ≤ cvRound x :=
    le_trans (Int.le_floor.mpr (by exact_mod_cast h)) (cvRound_ge_floor x)
  apply Fin.ne_of_val_ne
  show (max 0 (min (cvRound x) 255)).toNat ≠ ((0 : Fin 256) : ℕ)
  rw [show ((0 : Fin 256) : ℕ) = 0 from rfl]
  omega

lemma pixQ_nonneg (v : Fin 256) : 0 ≤ pixQ v := Nat.cast_nonneg _

lemma pixQ_255 : pixQ 255 = 255 := by
  unfold pixQ
  rw [show ((255 : Fin 256) : ℕ) = 255 from rfl]
  norm_num

lemma pixQ_satCast_eq (x : ℚ) (n : ℕ) (hn : n ≤ 255) (h : cvRound x = n) :
    pixQ (satCast x) = n := by
  unfold pixQ
  rw [show ((satCast x : Fin 256) : ℕ) = (max 0 (min (cvRound x) 255)).toNat from rfl, h]
  rw [show (max 0 (min ((n : ℕ) : ℤ) 255)).toNat = n by omega]

lemma clamp1_m2 : clampN 1 (-2) = 0 := rfl

lemma clamp1_m1 : clampN 1 (-1) = 0 := rfl

lemma clamp1_0 : clampN 1 0 = 0 := rfl

lemma clamp1_1 : clampN 1 1 = 0 := rfl

lemma clamp1_2 : clampN 1 2 = 0 := rfl

lemma clamp2_m1 : clampN 2 (-1) = 0 := rfl

lemma clamp2_0 : clampN 2 0 = 0 := rfl

lemma clamp2_1 : clampN 2 1 = 1 := rfl

lemma clamp2_2 : clampN 2 2 = 1 := rfl

set_option maxHeartbeats 4000000 in
lemma c6cell (a : ℕ) (ha : a < 3) :
    pixQ ((resizeCubicU8 imgC6 (imgC6.rows * 16) (imgC6.cols * 16)).data a 15 0) = 119 := by
  show pixQ (satCast (cubicSample (fun y x => pixQ (imgC6.data y x 0)) imgC6.rows imgC6.cols
    (imgC6.rows * 16) (imgC6.cols * 16) a 15)) = 119
  apply pixQ_satCast_eq _ 119 (by norm_num)
  rw [show imgC6.rows = 1 from rfl, show imgC6.cols = 2 from rfl]
  interval_cases a <;>
    · rw [show (cubicSample (fun y x => pixQ (imgC6.data y x 0)) 1 2 (1 * 16) (2 * 16) _ 15) =
        7768575/65536 by
          norm_num [cubicSample, Fin.sum_univ_four, cubicW, cubicA, imgC6,
            fin4_val0, fin4_val1, fin4_val2, fin4_val3,
            clamp1_m2, clamp1_m1, clamp1_0, clamp1_1, clamp1_2,
            clamp2_m1, clamp2_0, clamp2_1, clamp2_2,
            pixQ_zero, pixQ_255,
            abs_of_nonneg, abs_of_neg, abs_of_nonpos]]
      unfold cvRound
      norm_num

/-- C6 counterexample: on the 1x2 image with pixels (0, 255), overlay with
alpha = 0 does not return the input image: the upscale/downscale round trip
brightens the black pixel (its exact value is 30), because the block average
of the bicubic upscale is not the original pixel across the step edge. -/
theorem c6_roundtrip_counterexample :
    (overlay_heatmap cmap0 imgC6 hmap1 0).data 0 0 0 ≠ imgC6.data 0 0 0 := by
  rw [overlay_alpha_zero cmap0 imgC6 hmap1]
  show satCast ((∑ a ∈ Finset.range 16, ∑ b ∈ Finset.range 16,
      pixQ ((resizeCubicU8 imgC6 (imgC6.rows * 16) (imgC6.cols * 16)).data
        (0 * 16 + a) (0 * 16 + b) 0)) / ((16 * 16 : ℕ) : ℚ)) ≠ (0 : Fin 256)
  apply satCast_ne_zero
  rw [le_div_iff₀ (by norm_num : (0:ℚ) < ((16 * 16 : ℕ) : ℚ)), one_mul]
  simp only [zero_mul, zero_add]
  have hinner : ∀ a ∈ Finset.range 3, (119:ℚ) ≤ ∑ b ∈ Finset.range 16,
      pixQ ((resizeCubicU8 imgC6 (imgC6.rows * 16) (imgC6.cols * 16)).data a b 0) := by
    intro a ha
    have hc := c6cell a (Finset.mem_range.mp ha)
    calc (119:ℚ) = pixQ ((resizeCubicU8 imgC6 (imgC6.rows * 16) (imgC6.cols * 16)).data a 15 0) :=
        hc.symm
      _ ≤ ∑ b ∈ Finset.range 16,
          pixQ ((resizeCubicU8 imgC6 (imgC6.rows * 16) (imgC6.cols * 16)).data a b 0) :=
        Finset.single_le_sum (fun b _ => pixQ_nonneg _) (by norm_num)
  have h1 : ((16 * 16 : ℕ) : ℚ) ≤ ∑ a ∈ Finset.range 3, (119:ℚ) := by
    norm_num [Finset.sum_const, nsmul_eq_mul]
  have h2 : (∑ a ∈ Finset.range 3, (119:ℚ)) ≤ ∑ a ∈ Finset.range 3, ∑ b ∈ Finset.range 16,
      pixQ ((resizeCubicU8 imgC6 (imgC6.rows * 16) (imgC6.cols * 16)).data a b 0) :=
    Finset.sum_le_sum hinner
  have h3 : (∑ a ∈ Finset.range 3, ∑ b ∈ Finset.range 16,
      pixQ ((resizeCubicU8 imgC6 (imgC6.rows * 16) (imgC6.cols * 16)).data a b 0)) ≤
      ∑ a ∈ Finset.range 16, ∑ b ∈ Finset.range 16,
        pixQ ((resizeCubicU8 imgC6 (imgC6.rows * 16) (imgC6.cols * 16)).data a b 0) :=
    Finset.sum_le_sum_of_subset_of_nonneg
      (by intro x hx; rw [Finset.mem_range] at hx ⊢; omega)
      (fun i _ _ => Finset.sum_nonneg (fun b _ => pixQ_nonneg _))
  linarith

/-! Unfolding equations for the multi-circle loop. -/

lemma multiAux_nil (pt : Img → String → ℚ → ℤ × ℤ → Img) (hms : List (String × QMap))
    (K i : ℕ) (res : Img) (g : Rng) :
    multiCircleAux pt hms K [] i res g = ⟨res, g, [], []⟩ := rfl

lemma multiAux_break (pt : Img → String → ℚ → ℤ × ℤ → Img) (hms : List (String × QMap))
    (K : ℕ) (dp : String × ℚ) (rest : List (String × ℚ)) (i : ℕ) (res : Img) (g : Rng)
    (h : K ≤ i ∨ dp.2 < 1/10) :
    multiCircleAux pt hms K (dp :: rest) i res g = ⟨res, g, [], []⟩ := by
  simp only [multiCircleAux]
  rw [if_pos h]

lemma multiAux_skip (pt : Img → String → ℚ → ℤ × ℤ → Img) (hms : List (String × QMap))
    (K : ℕ) (dp : String × ℚ) (rest : List (String × ℚ)) (i : ℕ) (res : Img) (g : Rng)
    (h : ¬(K ≤ i ∨ dp.2 < 1/10)) (hlk : hms.lookup dp.1 = none) :
    multiCircleAux pt hms K (dp :: rest) i res g =
      multiCircleAux pt hms K rest (i + 1) res g := by
  simp only [multiCircleAux]
  rw [if_neg h, hlk]

lemma multiAux_draw (pt : Img → String → ℚ → ℤ × ℤ → Img) (hms : List (String × QMap))
    (K : ℕ) (dp : String × ℚ) (rest : List (String × ℚ)) (i : ℕ) (res : Img) (g : Rng)
    (hm : QMap) (h : ¬(K ≤ i ∨ dp.2 < 1/10)) (hlk : hms.lookup dp.1 = some hm) :
    multiCircleAux pt hms K (dp :: rest) i res g =
      ⟨(multiCircleAux pt hms K rest (i + 1)
          (pt (generate_circle_overlay res dp.1 (some hm) g).1 dp.1 dp.2 (textPos res hm))
          (generate_circle_overlay res dp.1 (some hm) g).2).img,
        (multiCircleAux pt hms K rest (i + 1)
          (pt (generate_circle_overlay res dp.1 (some hm) g).1 dp.1 dp.2 (textPos res hm))
          (generate_circle_overlay res dp.1 (some hm) g).2).rng,
        dp :: (multiCircleAux pt hms K rest (i + 1)
          (pt (generate_circle_overlay res dp.1 (some hm) g).1 dp.1 dp.2 (textPos res hm))
          (generate_circle_overlay res dp.1 (some hm) g).2).drawn,
        ⟨dp.1, dp.2, textPos res hm⟩ :: (multiCircleAux pt hms K rest (i + 1)
          (pt (generate_circle_overlay res dp.1 (some hm) g).1 dp.1 dp.2 (textPos res hm))
          (generate_circle_overlay res dp.1 (some hm) g).2).labels⟩ := by
  simp only [multiCircleAux]
  rw [if_neg h, hlk]

lemma lookup_mem_keys : ∀ (l : List (String × QMap)) (k : String) (v : QMap),
    l.lookup k = some v → k ∈ l.map Prod.fst := by
  intro l
  induction l with
  | nil => intro k v h; cases h
  | cons p rest ih =>
    intro k v h
    simp only [List.lookup] at h
    cases hk : (k == p.1) with
    | true =>
      rw [List.map_cons]
      exact (eq_of_beq hk) ▸ List.mem_cons_self _ _
    | false =>
      rw [hk] at h
      exact List.mem_cons_of_mem _ (ih k v h)

lemma multiAux_length (pt : Img → String → ℚ → ℤ × ℤ → Img) (hms : List (String × QMap))
    (K : ℕ) : ∀ (l : List (String × ℚ)) (i : ℕ) (res : Img) (g : Rng),
    (multiCircleAux pt hms K l i res g).drawn.length ≤ K - i := by
  intro l
  induction l with
  | nil =>
    intro i res g
    rw [multiAux_nil]
    simp
  | cons dp rest ih =>
    intro i res g
    by_cases hbr : K ≤ i ∨ dp.2 < 1/10
    · rw [multiAux_break pt hms K dp rest i res g hbr]
      simp
    · rcases hlk : hms.lookup dp.1 with _ | hm
      · rw [multiAux_skip pt hms K dp rest i res g hbr hlk]
        exact le_trans (ih (i + 1) res g) (by omega)
      · rw [multiAux_draw pt hms K dp rest i res g hm hbr hlk]
        dsimp only
        rw [List.length_cons]
        have hrec := ih (i + 1)
          (pt (generate_circle_overlay res dp.1 (some hm) g).1 dp.1 dp.2 (textPos res hm))
          (generate_circle_overlay res dp.1 (some hm) g).2
        have hiK : i < K := by
          rcases not_or.mp hbr with ⟨h1, _⟩
          omega
        omega

lemma multiAux_mem (pt : Img → String → ℚ → ℤ × ℤ → Img) (hms : List (String × QMap))
    (K : ℕ) : ∀ (l : List (String × ℚ)) (i : ℕ) (res : Img) (g : Rng),
    ∀ dp ∈ (multiCircleAux pt hms K l i res g).drawn,
      dp ∈ l ∧ (1:ℚ)/10 ≤ dp.2 ∧ dp.1 ∈ hms.map Prod.fst := by
  intro l
  induction l with
  | nil =>
    intro i res g dp hdp
    rw [multiAux_nil] at hdp
    cases hdp
  | cons dp0 rest ih =>
    intro i res g dp hdp
    by_cases hbr : K ≤ i ∨ dp0.2 < 1/10
    · rw [multiAux_break pt hms K dp0 rest i res g hbr] at hdp
      cases hdp
    · rcases hlk : hms.lookup dp0.1 with _ | hm
      · rw [multiAux_skip pt hms K dp0 rest i res g hbr hlk] at hdp
        obtain ⟨h1, h2, h3⟩ := ih (i + 1) res g dp hdp
        exact ⟨List.mem_cons_of_mem _ h1, h2, h3⟩
      · rw [multiAux_draw pt hms K dp0 rest i res g hm hbr hlk] at hdp
        dsimp only at hdp
        rcases List.mem_cons.mp hdp with rfl | hdp2
        · refine ⟨List.mem_cons_self _ _, ?_, lookup_mem_keys hms dp.1 hm hlk⟩
          rcases not_or.mp hbr with ⟨_, h2⟩
          exact not_lt.mp h2
        · obtain ⟨h1, h2, h3⟩ := ih (i + 1)
            (pt (generate_circle_overlay res dp0.1 (some hm) g).1 dp0.1 dp0.2 (textPos res hm))
            (generate_circle_overlay res dp0.1 (some hm) g).2 dp hdp2
          exact ⟨List.mem_cons_of_mem _ h1, h2, h3⟩

lemma multiAux_sorted (pt : Img → String → ℚ → ℤ × ℤ → Img) (hms : List (String × QMap))
    (K : ℕ) : ∀ (l : List (String × ℚ)) (i : ℕ) (res : Img) (g : Rng),
    l.Pairwise (fun a b => b.2 ≤ a.2) →
    (multiCircleAux pt hms K l i res g).drawn.Pairwise (fun a b => b.2 ≤ a.2) := by
  intro l
  induction l with
  | nil =>
    intro i res g _
    rw [multiAux_nil]
    exact List.Pairwise.nil
  | cons dp0 rest ih =>
    intro i res g hsort
    rw [List.pairwise_cons] at hsort
    by_cases hbr : K ≤ i ∨ dp0.2 < 1/10
    · rw [multiAux_break pt hms K dp0 rest i res g hbr]
      exact List.Pairwise.nil
    · rcases hlk : hms.lookup dp0.1 with _ | hm
      · rw [multiAux_skip pt hms K dp0 rest i res g hbr hlk]
        exact ih (i + 1) res g hsort.2
      · rw [multiAux_draw pt hms K dp0 rest i res g hm hbr hlk]
        dsimp only
        rw [List.pairwise_cons]
        constructor
        · intro b hb
          have hmem := (multiAux_mem pt hms K rest (i + 1)
            (pt (generate_circle_overlay res dp0.1 (some hm) g).1 dp0.1 dp0.2 (textPos res hm))
            (generate_circle_overlay res dp0.1 (some hm) g).2 b hb).1
          exact hsort.1 b hmem
        · exact ih (i + 1) _ _ hsort.2

lemma multiAux_labels_drawn (pt : Img → String → ℚ → ℤ × ℤ → Img)
    (hms : List (String × QMap)) (K : ℕ) :
    ∀ (l : List (String × ℚ)) (i : ℕ) (res : Img) (g : Rng),
      ((multiCircleAux pt hms K l i res g).labels).map (fun lab => (lab.disease, lab.prob)) =
        (multiCircleAux pt hms K l i res g).drawn := by
  intro l
  induction l with
  | nil =>
    intro i res g
    rw [multiAux_nil]
    rfl
  | cons dp0 rest ih =>
    intro i res g
    by_cases hbr : K ≤ i ∨ dp0.2 < 1/10
    · rw [multiAux_break pt hms K dp0 rest i res g hbr]
      rfl
    · rcases hlk : hms.lookup dp0.1 with _ | hm
      · rw [multiAux_skip pt hms K dp0 rest i res g hbr hlk]
        exact ih (i + 1) res g
      · rw [multiAux_draw pt hms K dp0 rest i res g hm hbr hlk]
        dsimp only
        rw [List.map_cons, ih (i + 1)
          (pt (generate_circle_overlay res dp0.1 (some hm) g).1 dp0.1 dp0.2 (textPos res hm))
          (generate_circle_overlay res dp0.1 (some hm) g).2]

lemma gco_shape (res : Img) (d : String) (hm : QMap) (g : Rng) :
    (generate_circle_overlay res d (some hm) g).1.rows = res.rows ∧
    (generate_circle_overlay res d (some hm) g).1.cols = res.cols := ⟨rfl, rfl⟩

lemma ratTrunc_sub20_lt (v : ℚ) (h : 0 ≤ v) : ratTrunc (v - 20) < ratTrunc v := by
  rw [ratTrunc_of_nonneg h]
  have h1 : ratTrunc (v - 20) ≤ ⌈v - 20⌉ := ratTrunc_le_ceil _
  have h2 : ⌈v - 20⌉ = ⌈v⌉ - 20 := by
    rw [show (20:ℚ) = ((20:ℤ):ℚ) by norm_num, Int.ceil_sub_int]
  have h3 : ⌈v⌉ ≤ ⌊v⌋ + 1 := Int.ceil_le_floor_add_one v
  omega

lemma multiAux_label_above (pt : Img → String → ℚ → ℤ × ℤ → Img)
    (hms : List (String × QMap)) (K : ℕ)
    (hPT : ∀ im s p q, (pt im s p q).rows = im.rows ∧ (pt im s p q).cols = im.cols)
    (R C : ℕ) : ∀ (l : List (String × ℚ)) (i : ℕ) (res : Img) (g : Rng),
    res.rows = R → res.cols = C →
    ∀ lab ∈ (multiCircleAux pt hms K l i res g).labels,
      ∃ hm, hms.lookup lab.disease = some hm ∧
        lab.pos = (rescaleCoord (argmaxRM hm).2 hm.cols C,
          ratTrunc ((((argmaxRM hm).1 * R : ℕ) : ℚ) / ((hm.rows : ℕ) : ℚ) - 20)) ∧
        lab.pos.2 < rescaleCoord (argmaxRM hm).1 hm.rows R := by
  intro l
  induction l with
  | nil =>
    intro i res g _ _ lab hlab
    rw [multiAux_nil] at hlab
    cases hlab
  | cons dp0 rest ih =>
    intro i res g hR hC lab hlab
    by_cases hbr : K ≤ i ∨ dp0.2 < 1/10
    · rw [multiAux_break pt hms K dp0 rest i res g hbr] at hlab
      cases hlab
    · rcases hlk : hms.lookup dp0.1 with _ | hm
      · rw [multiAux_skip pt hms K dp0 rest i res g hbr hlk] at hlab
        exact ih (i + 1) res g hR hC lab hlab
      · rw [multiAux_draw pt hms K dp0 rest i res g hm hbr hlk] at hlab
        dsimp only at hlab
        rcases List.mem_cons.mp hlab with rfl | hlab2
        · refine ⟨hm, hlk, ?_, ?_⟩
          · show textPos res hm = _
            unfold textPos
            rw [hR, hC]
          · show (textPos res hm).2 < rescaleCoord (argmaxRM hm).1 hm.rows R
            unfold textPos rescaleCoord
            rw [hR]
            exact ratTrunc_sub20_lt _ (div_nonneg (by positivity) (by positivity))
        · refine ih (i + 1)
            (pt (generate_circle_overlay res dp0.1 (some hm) g).1 dp0.1 dp0.2 (textPos res hm))
            (generate_circle_overlay res dp0.1 (some hm) g).2 ?_ ?_ lab hlab2
          · rw [(hPT (generate_circle_overlay res dp0.1 (some hm) g).1 dp0.1 dp0.2
              (textPos res hm)).1, (gco_shape res dp0.1 hm g).1, hR]
          · rw [(hPT (generate_circle_overlay res dp0.1 (some hm) g).1 dp0.1 dp0.2
              (textPos res hm)).2, (gco_shape res dp0.1 hm g).2, hC]

lemma create_multi_eq (pt : Img → String → ℚ → ℤ × ℤ → Img) (img : Img)
    (hms : List (String × QMap)) (preds : List (String × ℚ)) (g : Rng) (K : ℕ)
    (h : hms ≠ []) :
    create_multi_circle_overlay pt img hms preds g K =
      ((multiCircleAux pt hms K (sortDesc preds) 0 img g).img,
       (multiCircleAux pt hms K (sortDesc preds) 0 img g).rng) := by
  unfold create_multi_circle_overlay
  rw [if_neg (by simp only [List.isEmpty_eq_true]; exact h)]

/-- C7 amended: in create_multi_circle_overlay with the default max_circles
of 3, at most 3 regions are drawn, only for classes of confidence at least
1/10 that have a map, and each drawn region gets exactly one text label
positioned strictly above its marker centre.  However, the loop iterates the
pre-sorted predictions in descending confidence: the drawn list is pairwise
descending, so the MOST confident finding's disc is drawn FIRST (bottom of
the compositing stack) and the least confident drawn disc lands topmost —
the opposite of the claimed z-order (see the counterexample). -/
theorem c7_multi_circle_amended (pt : Img → String → ℚ → ℤ × ℤ → Img) (img : Img)
    (hms : List (String × QMap)) (preds : List (String × ℚ)) (g : Rng)
    (hPT : ∀ im s p q, (pt im s p q).rows = im.rows ∧ (pt im s p q).cols = im.cols) :
    (multiCircleAux pt hms 3 (sortDesc preds) 0 img g).drawn.length ≤ 3 ∧
    (∀ dp ∈ (multiCircleAux pt hms 3 (sortDesc preds) 0 img g).drawn,
      (1:ℚ)/10 ≤ dp.2 ∧ dp.1 ∈ hms.map Prod.fst) ∧
    (multiCircleAux pt hms 3 (sortDesc preds) 0 img g).drawn.Pairwise
      (fun a b => b.2 ≤ a.2) ∧
    ((multiCircleAux pt hms 3 (sortDesc preds) 0 img g).labels).map
      (fun lab => (lab.disease, lab.prob)) =
      (multiCircleAux pt hms 3 (sortDesc preds) 0 img g).drawn ∧
    (∀ lab ∈ (multiCircleAux pt hms 3 (sortDesc preds) 0 img g).labels,
      ∃ hm, hms.lookup lab.disease = some hm ∧
        lab.pos.2 < rescaleCoord (argmaxRM hm).1 hm.rows img.rows) ∧
    (hms ≠ [] → create_multi_circle_overlay pt img hms preds g 3 =
      ((multiCircleAux pt hms 3 (sortDesc preds) 0 img g).img,
       (multiCircleAux pt hms 3 (sortDesc preds) 0 img g).rng)) := by
  refine ⟨?_, ?_, ?_, ?_, ?_, ?_⟩
  · exact le_trans (multiAux_length pt hms 3 (sortDesc preds) 0 img g) (by omega)
  · intro dp hdp
    exact (multiAux_mem pt hms 3 (sortDesc preds) 0 img g dp hdp).2
  · exact multiAux_sorted pt hms 3 (sortDesc preds) 0 img g (sortDesc_pairwise preds)
  · exact multiAux_labels_drawn pt hms 3 (sortDesc preds) 0 img g
  · intro lab hlab
    obtain ⟨hm, h1, _, h3⟩ := multiAux_label_above pt hms 3 hPT img.rows img.cols
      (sortDesc preds) 0 img g rfl rfl lab hlab
    exact ⟨hm, h1, h3⟩
  · intro h
    exact create_multi_eq pt img hms preds g 3 h

theorem c7_multi_circle_amended_witness :
    (∀ im s p q, (putText0 im s p q).rows = im.rows ∧ (putText0 im s p q).cols = im.cols) ∧
    (multiCircleAux putText0 hmsC7 3 (sortDesc predsC7) 0 imgZ4 rng0).drawn.length ≤ 3 := by
  have hPT : ∀ im s p q, (putText0 im s p q).rows = im.rows ∧ (putText0 im s p q).cols = im.cols :=
    fun im s p q => ⟨rfl, rfl⟩
  exact ⟨hPT, (c7_multi_circle_amended putText0 imgZ4 hmsC7 predsC7 rng0 hPT).1⟩

lemma sortDesc_predsC7 : sortDesc predsC7 = [(dA, 9/10), (dB, 4/5)] := by
  show insertDesc (dA, 9/10) (insertDesc (dB, 4/5) []) = _
  norm_num [insertDesc]

lemma lookup_dA : hmsC7.lookup dA = some hmap1 := by
  simp [hmsC7, List.lookup]

lemma lookup_dB : hmsC7.lookup dB = some hmap1 := by
  simp [hmsC7, List.lookup, dA, dB]

/-- C7 counterexample: with two mapped classes at confidences 9/10 and 4/5,
the loop draws the 9/10 class FIRST and the 4/5 class LAST: the last-drawn
(topmost) disc belongs to the less confident class, while a strictly more
confident class was drawn before it — refuting the claim that the most
confident finding's disc is drawn last so as to appear topmost. -/
theorem c7_draw_order_counterexample :
    (multiCircleAux putText0 hmsC7 3 (sortDesc predsC7) 0 imgZ4 rng0).drawn.getLast? =
        some (dB, 4/5) ∧
    (dA, 9/10) ∈ (multiCircleAux putText0 hmsC7 3 (sortDesc predsC7) 0 imgZ4 rng0).drawn ∧
    (4:ℚ)/5 < 9/10 := by
  have hdrawn : (multiCircleAux putText0 hmsC7 3 (sortDesc predsC7) 0 imgZ4 rng0).drawn =
      [(dA, 9/10), (dB, 4/5)] := by
    rw [sortDesc_predsC7]
    rw [multiAux_draw putText0 hmsC7 3 (dA, 9/10) [(dB, 4/5)] 0 imgZ4 rng0 hmap1
      (by norm_num) lookup_dA]
    dsimp only
    rw [multiAux_draw putText0 hmsC7 3 (dB, 4/5) [] (0 + 1) _ _ hmap1
      (by norm_num) lookup_dB]
    dsimp only
    rw [multiAux_nil]
  rw [hdrawn]
  exact ⟨rfl, List.mem_cons_self _ _, by norm_num⟩
